import Mathlib

/-!
# Verification of the Tafsir Editor core
A shallow embedding of the block classifier, the AI-correction path, the
word-level diff engine and the checkpoint cache of the Tafsir Editor
repository (src/document_processor.py, src/ai_editor.py, src/app.py),
with theorems settling the specification's claims about them.

Python strings are modelled as lists of Unicode characters (CPython
indexes code points), Python floats as rationals, and fallible or
effectful code as explicit state passing.
-/

namespace Tafsir

/-- Text: a Python string as its list of code points. -/
abbrev Str := List Char

/-- Python `str.isspace` / `str.strip` whitespace, over the Unicode
whitespace code points Python recognises. -/
def pyIsSpace (c : Char) : Bool :=
  let n := c.toNat
  decide ((9 ≤ n ∧ n ≤ 13) ∨ n ∈ [28, 29, 30, 31, 32, 0x85, 0xa0, 0x1680] ∨
    (0x2000 ≤ n ∧ n ≤ 0x200a) ∨ n ∈ [0x2028, 0x2029, 0x202f, 0x205f, 0x3000])

/-- Python `str.strip()`: drop whitespace from both ends. -/
def pyStrip (s : Str) : Str :=
  ((s.dropWhile pyIsSpace).reverse.dropWhile pyIsSpace).reverse

/-- Python `str.strip(chars)`: drop the given characters from both ends. -/
def pyStripChars (chars : Str) (s : Str) : Str :=
  ((s.dropWhile (chars.contains ·)).reverse.dropWhile (chars.contains ·)).reverse

/-- Python `str.lower()`, restricted to the Latin and Cyrillic letters the
program's data uses (ASCII A-Z and the Russian alphabet). -/
def pyLowerChar (c : Char) : Char :=
  let n := c.toNat
  if 65 ≤ n ∧ n ≤ 90 then Char.ofNat (n + 32)
  else if 0x410 ≤ n ∧ n ≤ 0x42f then Char.ofNat (n + 32)
  else if n = 0x401 then Char.ofNat 0x451
  else c

/-- Python `str.lower()` on a string. -/
def pyLower (s : Str) : Str := s.map pyLowerChar

/-- Python `str.upper()`, restricted likewise. -/
def pyUpperChar (c : Char) : Char :=
  let n := c.toNat
  if 97 ≤ n ∧ n ≤ 122 then Char.ofNat (n - 32)
  else if 0x430 ≤ n ∧ n ≤ 0x44f then Char.ofNat (n - 32)
  else if n = 0x451 then Char.ofNat 0x401
  else c

/-- Python `str.upper()` on a string. -/
def pyUpper (s : Str) : Str := s.map pyUpperChar

/-- Python `needle in hay` substring containment. -/
def containsSub (needle : Str) : Str → Bool
  | [] => needle.isEmpty
  | c :: rest => needle.isPrefixOf (c :: rest) || containsSub needle rest

/-- Worker for `pySplit`: `cur` holds the current token reversed. -/
def pySplitGo : Str → Str → List Str
  | [], cur => if cur.isEmpty then [] else [cur.reverse]
  | c :: rest, cur =>
    if pyIsSpace c then
      if cur.isEmpty then pySplitGo rest [] else cur.reverse :: pySplitGo rest []
    else pySplitGo rest (c :: cur)

/-- Python `str.split()` with no arguments: split on runs of whitespace,
dropping empty pieces. -/
def pySplit (s : Str) : List Str := pySplitGo s []

/-- Python `' '.join(words)`. -/
def joinSpace : List Str → Str
  | [] => []
  | [w] => w
  | w :: ws => w ++ ' ' :: joinSpace ws

/-- Python decimal digit predicate for the scripts at hand
(ASCII and Arabic-Indic digits). -/
def pyIsDigit (c : Char) : Bool :=
  let n := c.toNat
  decide ((48 ≤ n ∧ n ≤ 57) ∨ (0x660 ≤ n ∧ n ≤ 0x669) ∨ (0x6f0 ≤ n ∧ n ≤ 0x6f9))

/-- Python slice `l[i:j]` on lists. -/
def slice (l : List α) (i j : Nat) : List α := (l.drop i).take (j - i)

/-! ## Script detection (src/document_processor.py) -/

/-- Membership in `TafsirDocumentProcessor.ARABIC_RANGE`:
`[؀-ۿݐ-ݿࢠ-ࣿﭐ-﷿ﹰ-﻿]`. -/
def isArabicChar (c : Char) : Bool :=
  let n := c.toNat
  decide ((0x600 ≤ n ∧ n ≤ 0x6ff) ∨ (0x750 ≤ n ∧ n ≤ 0x77f) ∨
    (0x8a0 ≤ n ∧ n ≤ 0x8ff) ∨ (0xfb50 ≤ n ∧ n ≤ 0xfdff) ∨ (0xfe70 ≤ n ∧ n ≤ 0xfeff))

/-- Membership in `CYRILLIC_RANGE`: `[Ѐ-ӿԀ-ԯ]`. -/
def isCyrillicChar (c : Char) : Bool :=
  let n := c.toNat
  decide ((0x400 ≤ n ∧ n ≤ 0x4ff) ∨ (0x500 ≤ n ∧ n ≤ 0x52f))

/-- `_count_script_chars`: (arabic, cyrillic, other) counts. -/
def countScriptChars (text : Str) : Nat × Nat × Nat :=
  let arabic := (text.filter isArabicChar).length
  let cyrillic := (text.filter isCyrillicChar).length
  (arabic, cyrillic, text.length - arabic - cyrillic)

/-- `len(text.replace(' ', '').replace('\n', ''))`, the denominator used by
`classify_paragraph` for the Arabic ratio. -/
def totalCharsOf (text : Str) : Nat :=
  (text.filter (fun c => c != ' ' && c != '\n')).length

/-- The Arabic script ratio exactly as `classify_paragraph` computes it:
`arabic_count / total_chars if total_chars > 0 else 0`. -/
def arabicRatioOf (text : Str) : ℚ :=
  if 0 < totalCharsOf text then
    (((text.filter isArabicChar).length : ℚ) / (totalCharsOf text : ℚ)) else 0

/-- Count of non-whitespace characters, the denominator the spec's
`scriptRatio` prescribes (`arabicCount / nonWhitespaceCharCount`); kept as a
second definition to compare against `arabicRatioOf`, which follows the code. -/
def nonWhitespaceCount (text : Str) : Nat :=
  (text.filter (fun c => !pyIsSpace c)).length

/-- The ratio as the spec's words define it (refinement comparison only). -/
def specScriptRatio (text : Str) : ℚ :=
  if 0 < nonWhitespaceCount text then
    (((text.filter isArabicChar).length : ℚ) / (nonWhitespaceCount text : ℚ)) else 0

/-! ## Block types and font extraction -/

/-- `BlockType`. The enum in src/document_processor.py lists `ayah`,
`translation`, `commentary`, `header`, `reference`, `empty`, `unknown`; the
constructor `explanation` is the member `BlockType.EXPLANATION` that
src/app.py references (render map and eligibility grouping) and the spec
lists — the classifier in src/document_processor.py never produces it. -/
inductive BlockType where
  | ayah | translation | commentary | header | reference | empty | unknown
  | explanation
  deriving DecidableEq, Repr

/-- `FontInfo` (src/document_processor.py). -/
structure FontInfo where
  name : Option Str := none
  size : Option ℚ := none
  bold : Bool := false
  italic : Bool := false
  colorRGB : Option (Nat × Nat × Nat) := none
  isArabicFont : Bool := false
  deriving DecidableEq, Repr

/-- One formatted run of a paragraph as python-docx exposes it:
text plus optional font attributes (None when unset). -/
structure RunInfo where
  text : Str := []
  fontName : Option Str := none
  fontSizePt : Option ℚ := none
  bold : Option Bool := none
  italic : Option Bool := none
  colorRGB : Option (Nat × Nat × Nat) := none
  deriving DecidableEq, Repr

/-- A paragraph as the processor reads it: text, optional style, runs. -/
structure Paragraph where
  text : Str := []
  styleName : Option Str := none
  runs : List RunInfo := []
  deriving DecidableEq, Repr

/-- `ARABIC_FONTS` (lower-case allow-list). -/
def arabicFonts : List Str :=
  ["traditional arabic".toList, "arabic typesetting".toList, "sakkal majalla".toList,
   "simplified arabic".toList, "arabic transparent".toList, "al-quran".toList,
   "scheherazade".toList, "amiri".toList, "lateef".toList, "noto naskh arabic".toList,
   "times new roman".toList]

/-- Python truthiness of an optional string (`None` and `""` are falsy). -/
def truthyStr : Option Str → Bool
  | some s => !s.isEmpty
  | none => false

/-- What one significant run contributes inside the `_extract_font_info`
loop: name and Arabic-font flag when the run names a font, size when
truthy, bold/italic always overwritten, colour when present. -/
def updateFromRun (info : FontInfo) (r : RunInfo) : FontInfo :=
  let info1 :=
    if truthyStr r.fontName then
      { info with name := r.fontName,
                  isArabicFont := arabicFonts.contains (pyLower (r.fontName.getD [])) }
    else info
  let info2 :=
    match r.fontSizePt with
    | some sz => if sz = 0 then info1 else { info1 with size := some sz }
    | none => info1
  let info3 := { info2 with bold := r.bold.getD false, italic := r.italic.getD false }
  match r.colorRGB with
  | some rgb => { info3 with colorRGB := some rgb }
  | none => info3

/-- The loop body of `_extract_font_info`: walk the runs, skip runs whose
stripped text is empty, accumulate attributes, stop after the first run that
set a font name. -/
def extractFontLoop : List RunInfo → FontInfo → FontInfo
  | [], info => info
  | r :: rs, info =>
    if (pyStrip r.text).isEmpty then extractFontLoop rs info
    else
      let info4 := updateFromRun info r
      if truthyStr info4.name then info4 else extractFontLoop rs info4

/-- `_extract_font_info` (the early return on an empty run list coincides
with the loop on `[]`). -/
def extractFontInfo (runs : List RunInfo) : FontInfo := extractFontLoop runs {}

/-- The descriptor name the spec says font extraction returns: the font name
of the first run that has non-blank text and specifies a font name
(comparison definition for the amended claim C9). -/
def firstNamedFont : List RunInfo → Option Str
  | [] => none
  | r :: rs =>
    if (pyStrip r.text).isEmpty then firstNamedFont rs
    else if truthyStr r.fontName then r.fontName
    else firstNamedFont rs

/-- The significant runs the spec says the scan visits: runs with non-blank
text, in document order, up to and including the first one that names a font
(all of them when none does) — comparison definition for the amended claim
C9: the extracted descriptor is the per-run update folded over exactly these
runs. -/
def runsScanned : List RunInfo → List RunInfo
  | [] => []
  | r :: rs =>
    if (pyStrip r.text).isEmpty then runsScanned rs
    else if truthyStr r.fontName then [r]
    else r :: runsScanned rs

/-- `_is_red_color`: red channel above 150, green and blue below 100. -/
def isRedColor : Option (Nat × Nat × Nat) → Bool
  | none => false
  | some (r, g, b) => decide (150 < r ∧ g < 100 ∧ b < 100)

/-! ## Reference-citation patterns of `_detect_block_type` -/

/-- `^\s*\[\d+\]`, anchored search. -/
def refPatBracket (s : Str) : Bool :=
  match s.dropWhile pyIsSpace with
  | '[' :: rest =>
    let ds := rest.takeWhile pyIsDigit
    !ds.isEmpty &&
      (match rest.drop ds.length with | ']' :: _ => true | _ => false)
  | _ => false

/-- `^\s*\(\d+:\d+\)`, anchored search. -/
def refPatChapterVerse (s : Str) : Bool :=
  match s.dropWhile pyIsSpace with
  | '(' :: rest =>
    let ds := rest.takeWhile pyIsDigit
    !ds.isEmpty &&
      (match rest.drop ds.length with
       | ':' :: rest2 =>
         let ds2 := rest2.takeWhile pyIsDigit
         !ds2.isEmpty &&
           (match rest2.drop ds2.length with | ')' :: _ => true | _ => false)
       | _ => false)
  | _ => false

/-- `^\s*\d+\.\s`, anchored search. -/
def refPatEnumerated (s : Str) : Bool :=
  let t := s.dropWhile pyIsSpace
  let ds := t.takeWhile pyIsDigit
  !ds.isEmpty &&
    (match t.drop ds.length with
     | '.' :: c :: _ => pyIsSpace c
     | _ => false)

/-- The keyword alternation `сура|аят|хадис` (unanchored search). -/
def refPatKeyword (s : Str) : Bool :=
  containsSub ("сура".toList) s || containsSub ("аят".toList) s ||
    containsSub ("хадис".toList) s

/-- Whether any of the four reference patterns matches (searched, as in the
source, against the lower-cased stripped text). -/
def matchesRefPattern (low : Str) : Bool :=
  refPatBracket low || refPatChapterVerse low || refPatEnumerated low || refPatKeyword low

/-! ## `_detect_block_type`: the ordered decision list -/

/-- `_detect_block_type` from src/document_processor.py, returning the block
type. The `reason` string component of the source's return value is used
only for notes and display and is omitted here; no claim mentions it. -/
def detectBlockType (text : Str) (fontInfo : FontInfo) (arabicRatio : ℚ)
    (hasArabic hasCyrillic : Bool) (styleName : Str) : BlockType :=
  let t := pyStrip text
  if t.isEmpty then .empty
  else if !styleName.isEmpty && containsSub ("heading".toList) (pyLower styleName) then .header
  else if decide ((9 : ℚ)/10 < arabicRatio) && isRedColor fontInfo.colorRGB then .ayah
  else if decide ((9 : ℚ)/10 < arabicRatio) && fontInfo.isArabicFont then .ayah
  else if decide ((95 : ℚ)/100 < arabicRatio) then .ayah
  else if decide ((8 : ℚ)/10 < arabicRatio) && truthyStr fontInfo.name &&
      containsSub ("arabic".toList) (pyLower (fontInfo.name.getD [])) then .ayah
  else if !hasArabic && hasCyrillic && decide (t.length < 500) then .translation
  else if hasCyrillic && decide (arabicRatio < (3 : ℚ)/10) then .commentary
  else if hasCyrillic && hasArabic && decide (arabicRatio < (5 : ℚ)/10) then .commentary
  else if matchesRefPattern (pyLower t) then .reference
  else if hasArabic && !hasCyrillic then .ayah
  else .unknown

/-- The localized explanatory-label markers of the spec's classifier rule 3.
Modelled from the spec: the `EXPLANATION` prefix rule (and the enum member it
produces) is referenced by src/app.py but its definition is not among the
files under src/; the spec describes it as "a localized
\"explanation:\"/\"commentary:\" marker". -/
def explanationMarkers : List Str :=
  ["пояснение:".toList, "толкование:".toList, "комментарий:".toList]

/-- Whether the (stripped) text begins with a known explanatory-label marker. -/
def startsWithExplanationMarker (t : Str) : Bool :=
  explanationMarkers.any (fun m => m.isPrefixOf (pyLower t))

/-- Modelled from the spec: the full classifier decision list of spec §4.3,
which is `_detect_block_type` with rule 3 (explanatory-label marker →
EXPLANATION) inserted between the header rule and the scripture-ratio rules.
The rule itself is absent from src/document_processor.py; everything else
follows the source. -/
def detectBlockTypeFull (text : Str) (fontInfo : FontInfo) (arabicRatio : ℚ)
    (hasArabic hasCyrillic : Bool) (styleName : Str) : BlockType :=
  let t := pyStrip text
  if t.isEmpty then .empty
  else if !styleName.isEmpty && containsSub ("heading".toList) (pyLower styleName) then .header
  else if startsWithExplanationMarker t then .explanation
  else if decide ((9 : ℚ)/10 < arabicRatio) && isRedColor fontInfo.colorRGB then .ayah
  else if decide ((9 : ℚ)/10 < arabicRatio) && fontInfo.isArabicFont then .ayah
  else if decide ((95 : ℚ)/100 < arabicRatio) then .ayah
  else if decide ((8 : ℚ)/10 < arabicRatio) && truthyStr fontInfo.name &&
      containsSub ("arabic".toList) (pyLower (fontInfo.name.getD [])) then .ayah
  else if !hasArabic && hasCyrillic && decide (t.length < 500) then .translation
  else if hasCyrillic && decide (arabicRatio < (3 : ℚ)/10) then .commentary
  else if hasCyrillic && hasArabic && decide (arabicRatio < (5 : ℚ)/10) then .commentary
  else if matchesRefPattern (pyLower t) then .reference
  else if hasArabic && !hasCyrillic then .ayah
  else .unknown

/-! ## `classify_paragraph` -/

/-- `TafsirBlock` (src/document_processor.py). The `_paragraph_ref` object
handle and the display-only `ai_processing_notes` string are omitted. -/
structure TafsirBlock where
  index : Nat
  blockType : BlockType
  text : Str
  hasArabic : Bool := false
  hasCyrillic : Bool := false
  isMixed : Bool := false
  arabicRatio : ℚ := 0
  primaryFont : Option Str := none
  fontSize : Option ℚ := none
  isBold : Bool := false
  isItalic : Bool := false
  textColor : Option (Nat × Nat × Nat) := none
  isRedText : Bool := false
  canProcessWithAI : Bool := false
  wordCount : Nat := 0
  charCount : Nat := 0
  deriving DecidableEq, Repr

/-- `classify_paragraph` from src/document_processor.py. -/
def classifyParagraph (index : Nat) (p : Paragraph) : TafsirBlock :=
  let text := p.text
  let counts := countScriptChars text
  let hasArabic : Bool := decide (0 < counts.1)
  let hasCyrillic : Bool := decide (0 < counts.2.1)
  let arabicRatio := arabicRatioOf text
  let fontInfo := extractFontInfo p.runs
  let styleName := p.styleName.getD []
  let btype := detectBlockType text fontInfo arabicRatio hasArabic hasCyrillic styleName
  let canAI : Bool := btype = BlockType.commentary ∨ btype = BlockType.translation
  { index := index
    blockType := btype
    text := text
    hasArabic := hasArabic
    hasCyrillic := hasCyrillic
    isMixed := hasArabic && hasCyrillic
    arabicRatio := arabicRatio
    primaryFont := fontInfo.name
    fontSize := fontInfo.size
    isBold := fontInfo.bold
    isItalic := fontInfo.italic
    textColor := fontInfo.colorRGB
    isRedText := isRedColor fontInfo.colorRGB
    canProcessWithAI := canAI
    wordCount := (pySplit text).length
    charCount := text.length }

/-! ## The AI correction path (src/ai_editor.py) -/

/-- `EditResult` (the spec's CorrectionResult): outcome of correcting one
block. `error` is the failure descriptor, `skippedOriginal` the
"unchanged by gateway" flag. -/
structure EditResult where
  blockIndex : Nat
  originalText : Str
  editedText : Str
  wasChanged : Bool
  error : Option Str := none
  skippedOriginal : Bool := false
  deriving DecidableEq, Repr

/-- The correction gateway boundary: `edit_text` as seen by `edit_block` —
text in, (corrected text, optional error) out. The OpenAI call itself is the
external collaborator and is abstracted as a function. -/
abbrev Gateway := Str → Str × Option Str

/-- `TafsirAIEditor.edit_block` from src/ai_editor.py: refuse non-eligible
blocks without invoking the gateway; recognise the `ORIGINAL` sentinel;
otherwise report whether the stripped text changed. -/
def editBlock (editText : Gateway) (block : TafsirBlock) : EditResult :=
  if !block.canProcessWithAI then
    { blockIndex := block.index
      originalText := block.text
      editedText := block.text
      wasChanged := false
      error := some ("Block is not marked for AI processing".toList) }
  else
    let res := editText block.text
    if pyUpper (pyStrip res.1) = "ORIGINAL".toList then
      { blockIndex := block.index
        originalText := block.text
        editedText := block.text
        wasChanged := false
        error := none
        skippedOriginal := true }
    else
      { blockIndex := block.index
        originalText := block.text
        editedText := res.1
        wasChanged := pyStrip res.1 ≠ pyStrip block.text
        error := res.2 }

/-- `clean_ayah_text`: strip, remove the ornate brackets from both ends,
delete the quote characters, strip again. The sequential global
`str.replace` deletions amount to one filter over the quote set. -/
def cleanAyahText (text : Str) : Str :=
  let t := pyStrip text
  let t := pyStripChars ['﴿', '﴾'] t
  let t := t.filter (fun c => !(['«', '»', '"', '\''].contains c))
  pyStrip t

/-! ## The edit cache (spec §3, §6, §9)

Modelled from the spec: src/app.py imports `EditCache` from ai_editor and
drives it (`get_result`, `save_result`, `set_metadata`, `update_metadata`,
`clear`), but the class itself is not among the files under src/. The spec
specifies it as a write-through key-value store from block index to
CorrectionResult, persisted with `metadata` plus `results` keyed by the
block index serialized as a string, required to round-trip. -/

/-- The in-memory cache: one result per block index. -/
abbrev EditCacheMap := List (Nat × EditResult)

/-- `get(index)`. -/
def cacheGetResult (c : EditCacheMap) (i : Nat) : Option EditResult :=
  (c.find? (fun e => e.1 == i)).map (·.2)

/-- `put(index, result)`: exactly one entry per index, overwritten on
recomputation (spec §3 invariant). -/
def cacheSaveResult (c : EditCacheMap) (r : EditResult) : EditCacheMap :=
  if (c.find? (fun e => e.1 == r.blockIndex)).isSome then
    c.map (fun e => if e.1 == r.blockIndex then (e.1, r) else e)
  else c ++ [(r.blockIndex, r)]

/-- A scalar of the persisted cache file (its storage is JSON-like). -/
inductive JVal where
  | str : Str → JVal
  | num : Nat → JVal
  | bool : Bool → JVal
  | nullv : JVal
  deriving DecidableEq, Repr

/-- Decimal digit character for serialized indices. -/
def decDigit (n : Nat) : Char :=
  match n with
  | 0 => '0' | 1 => '1' | 2 => '2' | 3 => '3' | 4 => '4'
  | 5 => '5' | 6 => '6' | 7 => '7' | 8 => '8' | _ => '9'

/-- A Nat rendered in decimal (the serialized string key of a block index). -/
def natToDec (n : Nat) : Str :=
  if h : n < 10 then [decDigit n]
  else natToDec (n / 10) ++ [decDigit (n % 10)]
  termination_by n
  decreasing_by exact Nat.div_lt_self (by omega) (by omega)

/-- Decimal parser worker. -/
def decToNatGo : Str → Nat → Option Nat
  | [], acc => some acc
  | c :: rest, acc =>
    if 48 ≤ c.toNat ∧ c.toNat ≤ 57 then decToNatGo rest (acc * 10 + (c.toNat - 48))
    else none

/-- Parse a decimal string key back to a Nat. -/
def decToNat (s : Str) : Option Nat :=
  if s.isEmpty then none else decToNatGo s 0

/-- One CorrectionResult serialized as the record of fields the spec lists
(blockIndex, originalText, correctedText, changed,
failure-message-or-absent, unchangedByGateway). -/
def serializeResult (r : EditResult) : List (Str × JVal) :=
  [("block_index".toList, .num r.blockIndex),
   ("original_text".toList, .str r.originalText),
   ("edited_text".toList, .str r.editedText),
   ("was_changed".toList, .bool r.wasChanged),
   ("error".toList, match r.error with | some e => .str e | none => .nullv),
   ("skipped_original".toList, .bool r.skippedOriginal)]

/-- Parse a serialized record back into an EditResult. -/
def parseResult (fields : List (Str × JVal)) : Option EditResult :=
  match fields with
  | [(_, .num idx), (_, .str orig), (_, .str edited), (_, .bool chg), (_, errv),
     (_, .bool skp)] =>
    match errv with
    | .str e => some ⟨idx, orig, edited, chg, some e, skp⟩
    | .nullv => some ⟨idx, orig, edited, chg, none, skp⟩
    | _ => none
  | _ => none

/-- The persisted `results` mapping: block index serialized as a string key,
record as value. -/
def saveCacheFile (c : EditCacheMap) : List (Str × List (Str × JVal)) :=
  c.map (fun e => (natToDec e.1, serializeResult e.2))

/-- Reload the persisted mapping into the in-memory cache; `none` on any
malformed entry. -/
def loadCacheFile : List (Str × List (Str × JVal)) → Option EditCacheMap
  | [] => some []
  | (k, fields) :: rest =>
    match decToNat k, parseResult fields, loadCacheFile rest with
    | some i, some r, some c => some ((i, r) :: c)
    | _, _, _ => none

/-! ## The retry policy (spec §4.4, §7)

Modelled from the spec: src/app.py calls `editor.edit_block(block,
max_retries=3)` but the retrying variant of `edit_block` is not among the
files under src/ (the src edit path takes no retry argument). The spec
prescribes a bounded retry with exponential backoff — base delay doubling
per attempt, capped attempt count 3 — before surfacing Failed. -/

/-- A transiently failing gateway: outcome of the k-th call (0-based). -/
abbrev FlakyGateway := Nat → Except Str Str

/-- Trace of one retried correction: how many gateway calls were made, the
backoff delays slept between consecutive attempts, and the final outcome. -/
structure RetryTrace where
  attempts : Nat
  delays : List ℚ
  outcome : Except Str Str
  deriving Repr

/-- Retry worker: `attempt` is the index of the next call, the Nat argument
the number of attempts still allowed. -/
def runRetryGo (gw : FlakyGateway) (baseDelay : ℚ) (attempt : Nat) :
    Nat → RetryTrace
  | 0 => ⟨attempt, [], .error ("no attempts allowed".toList)⟩
  | remaining + 1 =>
    match gw attempt with
    | .ok t => ⟨attempt + 1, [], .ok t⟩
    | .error e =>
      if remaining = 0 then ⟨attempt + 1, [], .error e⟩
      else
        let rest := runRetryGo gw baseDelay (attempt + 1) remaining
        ⟨rest.attempts, baseDelay * 2 ^ attempt :: rest.delays, rest.outcome⟩

/-- The bounded-retry policy: up to `maxRetries` gateway calls with
exponential backoff between consecutive attempts. -/
def runRetry (gw : FlakyGateway) (baseDelay : ℚ) (maxRetries : Nat) : RetryTrace :=
  runRetryGo gw baseDelay 0 maxRetries

/-! ## The per-run correction loop of src/app.py -/

/-- What one run of the app's correction loop produces: the in-memory result
list, the final cache, and the indices of the blocks actually sent to the
editor (fresh gateway work, as opposed to cache hits). -/
structure RunOutcome where
  results : List EditResult
  cache : EditCacheMap
  freshCalls : List Nat
  deriving DecidableEq, Repr

/-- The block loop of `main` in src/app.py (cache enabled): reuse a cached
result when present; otherwise call the editor, write the result through to
the cache, and on an error halt the remaining queue (the failed result is
persisted but, as in the source, not appended to the in-memory list —
`break` fires before `results.append`). The editor (`edit_block` with
`max_retries=3`) is abstracted as a function. -/
def appLoop (editor : TafsirBlock → EditResult) :
    List TafsirBlock → EditCacheMap → RunOutcome
  | [], c => ⟨[], c, []⟩
  | b :: bs, c =>
    match cacheGetResult c b.index with
    | some r =>
      let rest := appLoop editor bs c
      ⟨r :: rest.results, rest.cache, rest.freshCalls⟩
    | none =>
      let r := editor b
      let c1 := cacheSaveResult c r
      if r.error.isSome then ⟨[], c1, [b.index]⟩
      else
        let rest := appLoop editor bs c1
        ⟨r :: rest.results, rest.cache, b.index :: rest.freshCalls⟩

/-! ## The word-level diff engine

`VisualDiffWriter._compute_word_diff` tokenizes both texts with `split()`
and runs `difflib.SequenceMatcher(None, old_words, new_words).get_opcodes()`.
The matcher is embedded below from CPython's difflib: `__chain_b` (with the
default `autojunk` popularity pruning and no junk predicate, so the
junk-extension loops of `find_longest_match` never fire and are omitted),
`find_longest_match`, the divide-and-conquer of `get_matching_blocks`
(written recursively with fuel — the source's queue plus final sort visits
the same rectangles and emits the same blocks in the same sorted order),
the adjacent-block merge, and `get_opcodes`. -/

/-- A token: one whitespace-delimited word. -/
abbrev Tok := Str

/-- One matching block `(i, j, size)`. -/
structure MatchBlock where
  i : Nat
  j : Nat
  k : Nat
  deriving DecidableEq, Repr

/-- `b2j` after `__chain_b`: the (ascending) list of positions of a token in
`b`; with `autojunk`, tokens occurring in more than one percent of a `b` of
length at least 200 are dropped ("popular" elements). -/
def b2j (b : List Tok) (x : Tok) : List Nat :=
  let idxs := (List.range b.length).filter (fun j => b[j]? == some x)
  if 200 ≤ b.length ∧ b.length / 100 + 1 < idxs.length then [] else idxs

/-- The inner loop of `find_longest_match` over the candidate positions of
`a[i]` in `b`: `continue` below `blo`, `break` at `bhi`, otherwise extend the
diagonal run ending at `(i, j)` and track the best. `oldf` is the previous
row's `j2len`, `newf` the row being built, `best` is `(besti, bestj, bestsize)`. -/
def flmInner (oldf : Nat → Nat) (blo bhi i : Nat) :
    List Nat → (Nat → Nat) → MatchBlock → ((Nat → Nat) × MatchBlock)
  | [], newf, best => (newf, best)
  | j :: js, newf, best =>
    if j < blo then flmInner oldf blo bhi i js newf best
    else if bhi ≤ j then (newf, best)
    else
      let k := (if j = 0 then 0 else oldf (j - 1)) + 1
      let newf1 := fun x => if x = j then k else newf x
      let best1 := if best.k < k then ⟨i + 1 - k, j + 1 - k, k⟩ else best
      flmInner oldf blo bhi i js newf1 best1

/-- One row of the `find_longest_match` dynamic program: a fresh `newj2len`
is built from the previous row. -/
def flmRow (a b : List Tok) (blo bhi : Nat)
    (st : (Nat → Nat) × MatchBlock) (i : Nat) : (Nat → Nat) × MatchBlock :=
  match a[i]? with
  | none => ((fun _ => 0), st.2)
  | some tok => flmInner st.1 blo bhi i (b2j b tok) (fun _ => 0) st.2

/-- Element comparison `a[i] == b[j]` for the extension loops (out-of-range
reads as mismatch; the loop conditions keep the indices in range). -/
def matchAt (a b : List Tok) (i j : Nat) : Bool :=
  (a[i]? == b[j]?) && (a[i]?).isSome

/-- The leftward extension loop of `find_longest_match`
(`while besti > alo and bestj > blo and a[besti-1] == b[bestj-1]`). The fuel
bounds the iteration count; `besti` many steps always suffice. -/
def extendLeft (a b : List Tok) (alo blo : Nat) : Nat → MatchBlock → MatchBlock
  | 0, m => m
  | fuel + 1, m =>
    if alo < m.i && blo < m.j && matchAt a b (m.i - 1) (m.j - 1) then
      extendLeft a b alo blo fuel ⟨m.i - 1, m.j - 1, m.k + 1⟩
    else m

/-- The rightward extension loop
(`while besti+bestsize < ahi and ... a[besti+bestsize] == b[bestj+bestsize]`). -/
def extendRight (a b : List Tok) (ahi bhi : Nat) : Nat → MatchBlock → MatchBlock
  | 0, m => m
  | fuel + 1, m =>
    if m.i + m.k < ahi && m.j + m.k < bhi && matchAt a b (m.i + m.k) (m.j + m.k) then
      extendRight a b ahi bhi fuel ⟨m.i, m.j, m.k + 1⟩
    else m

/-- `find_longest_match(alo, ahi, blo, bhi)`: the dynamic program over rows
`alo..ahi-1`, then the two non-junk extension loops (the junk set is empty —
`isjunk=None` — so the junk-extension loops are identities and are omitted). -/
def findLongestMatch (a b : List Tok) (alo ahi blo bhi : Nat) : MatchBlock :=
  let st := (List.range' alo (ahi - alo)).foldl (flmRow a b blo bhi)
    ((fun _ => 0), ⟨alo, blo, 0⟩)
  let m := extendLeft a b alo blo st.2.i st.2
  extendRight a b ahi bhi ahi m

/-- The divide-and-conquer of `get_matching_blocks`, recursively: find the
longest match of the rectangle, recurse left of it and right of it. The fuel
(rectangle perimeter plus one at the top call) covers the recursion depth. -/
def matchBlocksRec (a b : List Tok) : Nat → Nat → Nat → Nat → Nat → List MatchBlock
  | 0, _, _, _, _ => []
  | fuel + 1, alo, ahi, blo, bhi =>
    let m := findLongestMatch a b alo ahi blo bhi
    if m.k = 0 then []
    else
      (if alo < m.i ∧ blo < m.j then matchBlocksRec a b fuel alo m.i blo m.j else []) ++
      m ::
      (if m.i + m.k < ahi ∧ m.j + m.k < bhi then
        matchBlocksRec a b fuel (m.i + m.k) ahi (m.j + m.k) bhi else [])

/-- The adjacent-block merge of `get_matching_blocks`: `(i1,j1,k1)` is the
pending block, extended whenever the next block starts exactly at its end. -/
def mergeAdjacent (i1 j1 k1 : Nat) : List MatchBlock → List MatchBlock
  | [] => if k1 ≠ 0 then [⟨i1, j1, k1⟩] else []
  | m :: rest =>
    if i1 + k1 = m.i ∧ j1 + k1 = m.j then mergeAdjacent i1 j1 (k1 + m.k) rest
    else if k1 ≠ 0 then ⟨i1, j1, k1⟩ :: mergeAdjacent m.i m.j m.k rest
    else mergeAdjacent m.i m.j m.k rest

/-- `get_matching_blocks`: the recursive matches, merged, with the
`(la, lb, 0)` sentinel appended. -/
def getMatchingBlocks (a b : List Tok) : List MatchBlock :=
  let la := a.length
  let lb := b.length
  mergeAdjacent 0 0 0 (matchBlocksRec a b (la + lb + 1) 0 la 0 lb) ++ [⟨la, lb, 0⟩]

/-- An opcode tag of `get_opcodes`. -/
inductive OpTag where
  | equal | delete | insert | replace
  deriving DecidableEq, Repr

/-- One opcode `(tag, i1, i2, j1, j2)`. -/
structure Opcode where
  tag : OpTag
  i1 : Nat
  i2 : Nat
  j1 : Nat
  j2 : Nat
  deriving DecidableEq, Repr

/-- The loop of `get_opcodes`: walk the matching blocks from position
`(i, j)`, emitting a gap opcode before each block and an `equal` opcode for
the block itself. -/
def opWalk : Nat → Nat → List MatchBlock → List Opcode
  | _, _, [] => []
  | i, j, m :: rest =>
    (if i < m.i ∧ j < m.j then [⟨.replace, i, m.i, j, m.j⟩]
     else if i < m.i then [⟨.delete, i, m.i, j, m.j⟩]
     else if j < m.j then [⟨.insert, i, m.i, j, m.j⟩]
     else []) ++
    (if m.k ≠ 0 then [⟨.equal, m.i, m.i + m.k, m.j, m.j + m.k⟩] else []) ++
    opWalk (m.i + m.k) (m.j + m.k) rest

/-- `get_opcodes()`. -/
def getOpcodes (a b : List Tok) : List Opcode :=
  opWalk 0 0 (getMatchingBlocks a b)

/-- The kind of a `DiffOperation` ('equal' / 'delete' / 'insert' in the
source's string field). -/
inductive DiffTag where
  | equal | delete | insert
  deriving DecidableEq, Repr

/-- `DiffOperation`: one span of the word-level diff, its text the
space-join of the span's tokens (as in the source). -/
structure DiffOperation where
  operation : DiffTag
  text : Str
  deriving DecidableEq, Repr

/-- How `_compute_word_diff` turns one opcode into diff operations: `equal`
and `delete` join the old words of the a-range, `insert` the new words of
the b-range, and `replace` expands into the delete span of its old tokens
followed by the insert span of its new tokens (each only if non-empty). -/
def opcodeToDiffOps (oldWords newWords : List Tok) (oc : Opcode) : List DiffOperation :=
  match oc.tag with
  | .equal => [⟨.equal, joinSpace (slice oldWords oc.i1 oc.i2)⟩]
  | .delete => [⟨.delete, joinSpace (slice oldWords oc.i1 oc.i2)⟩]
  | .insert => [⟨.insert, joinSpace (slice newWords oc.j1 oc.j2)⟩]
  | .replace =>
    (if oc.i1 < oc.i2 then [⟨.delete, joinSpace (slice oldWords oc.i1 oc.i2)⟩] else []) ++
    (if oc.j1 < oc.j2 then [⟨.insert, joinSpace (slice newWords oc.j1 oc.j2)⟩] else [])

/-- `VisualDiffWriter._compute_word_diff`. -/
def computeWordDiff (oldText newText : Str) : List DiffOperation :=
  let oldWords := pySplit oldText
  let newWords := pySplit newText
  (getOpcodes oldWords newWords).flatMap (opcodeToDiffOps oldWords newWords)

/-- The tokens of a span: the whitespace tokenization of its text (the spec's
DiffOperation carries the token list; the source stores their space-join). -/
def spanTokens (op : DiffOperation) : List Tok := pySplit op.text

/-! ## Rendering the diff into a paragraph (`apply_visual_diff`) -/

/-- One run written into the output document, with the formatting the writer
sets (strikethrough + dark red for deletions, yellow highlight + dark green
for insertions, explicit font for ayah brackets). -/
structure DocRun where
  text : Str
  strike : Bool := false
  colorRGB : Option (Nat × Nat × Nat) := none
  highlightYellow : Bool := false
  fontName : Option Str := none
  sizePt : Option ℚ := none
  boldSet : Option Bool := none
  deriving DecidableEq, Repr

/-- The separator run `paragraph.add_run(" ")`. -/
def spaceRun : DocRun := { text := [' '] }

/-- The styled run for one diff operation. -/
def styleRun (op : DiffOperation) : DocRun :=
  match op.operation with
  | .equal => { text := op.text }
  | .delete => { text := op.text, strike := true, colorRGB := some (180, 0, 0) }
  | .insert =>
    { text := op.text, highlightYellow := true, colorRGB := some (0, 100, 0) }

/-- The run-emitting loop of `apply_visual_diff`, with `prev` the list
element before the current one (`diff_ops[i-1]`, consulted whether or not it
was skipped as empty): empty spans are skipped; a space is added before a
non-`equal` span when the previous span is also non-`equal`; a space is
added after a span when the next span is `equal`. -/
def renderLoop : Option DiffOperation → List DiffOperation → List DocRun
  | _, [] => []
  | prev, op :: rest =>
    if op.text.isEmpty then renderLoop (some op) rest
    else
      (match prev with
       | some p =>
         if op.operation ≠ DiffTag.equal ∧ p.operation ≠ DiffTag.equal then [spaceRun]
         else []
       | none => []) ++
      styleRun op ::
      (match rest with
       | next :: _ => if next.operation = DiffTag.equal then [spaceRun] else []
       | [] => []) ++
      renderLoop (some op) rest

/-- The full run list `apply_visual_diff` writes into the cleared paragraph. -/
def renderOps (ops : List DiffOperation) : List DocRun := renderLoop none ops

/-- The amended separator rule that the code actually implements: a space
precedes an `equal` span always, and precedes a non-`equal` span exactly
when the span before it is also non-`equal` (so an `equal` span and a
following deletion/insertion are joined with no separator, while the delete
and insert spans of a replace expansion are separated by one space). -/
def sepBeforeAmended (p c : DiffTag) : Bool :=
  match c with
  | .equal => true
  | _ => p ≠ DiffTag.equal

/-- Reference rendering under the amended separator rule, for comparison
with `renderOps`. -/
def altGo (p : DiffOperation) : List DiffOperation → List DocRun
  | [] => []
  | op :: rest =>
    (if sepBeforeAmended p.operation op.operation then [spaceRun] else []) ++
    styleRun op :: altGo op rest

/-- Reference rendering under the amended separator rule. -/
def altRender : List DiffOperation → List DocRun
  | [] => []
  | op :: rest => styleRun op :: altGo op rest

/-- A document, as the writer touches it: the run lists of its paragraphs. -/
abbrev Document := List (List DocRun)

/-- `VisualDiffWriter.apply_visual_diff`: out-of-range paragraph index or
equal stripped texts return `False` and leave the document untouched;
otherwise the paragraph is cleared and the rendered diff runs are written. -/
def applyVisualDiff (doc : Document) (paragraphIndex : Nat)
    (original edited : Str) : Bool × Document :=
  if doc.length ≤ paragraphIndex then (false, doc)
  else if pyStrip original = pyStrip edited then (false, doc)
  else (true, doc.set paragraphIndex (renderOps (computeWordDiff original edited)))

/-- The run of the opening bracket `﴿` written by `apply_ayah_brackets`. -/
def ayahBracketRun (t : Str) : DocRun :=
  { text := t, colorRGB := some (139, 0, 0),
    fontName := some ("Traditional Arabic".toList), sizePt := some 16,
    boldSet := some false }

/-- `VisualDiffWriter.apply_ayah_brackets`: out-of-range index returns
`False` untouched; otherwise the paragraph becomes the bracket run, the
cleaned text run, and the closing bracket run. -/
def applyAyahBrackets (doc : Document) (paragraphIndex : Nat) (text : Str) :
    Bool × Document :=
  if doc.length ≤ paragraphIndex then (false, doc)
  else
    (true, doc.set paragraphIndex
      [ayahBracketRun ['﴿', ' '],
       ayahBracketRun (cleanAyahText text),
       ayahBracketRun [' ', '﴾']])

/-! ## Proof-side predicates for the diff development -/

/-- The matching blocks form a chain: starting from position `(i, j)`, each
block begins at or after the current position and ends within `(e, f)`. -/
def Chain : Nat → Nat → Nat → Nat → List MatchBlock → Prop
  | _, _, _, _, [] => True
  | i, j, e, f, m :: rest =>
    i ≤ m.i ∧ j ≤ m.j ∧ m.i + m.k ≤ e ∧ m.j + m.k ≤ f ∧
      Chain (m.i + m.k) (m.j + m.k) e f rest

/-- Every block of the list is an actual match of `a` against `b`. -/
def AllMatch (a b : List Tok) (L : List MatchBlock) : Prop :=
  ∀ m ∈ L, ∀ t, t < m.k → a[m.i + t]? = b[m.j + t]?

/-- The a-side position where the opcode walk over the blocks ends. -/
def endA (d : Nat) : List MatchBlock → Nat
  | [] => d
  | m :: rest => endA (m.i + m.k) rest

/-- The b-side position where the opcode walk over the blocks ends. -/
def endB (d : Nat) : List MatchBlock → Nat
  | [] => d
  | m :: rest => endB (m.j + m.k) rest

/-- Soundness of a candidate best match for the rectangle
`[alo, ahi) × [blo, bhi)`: it lies inside and is an actual match. -/
def BestOK (a b : List Tok) (alo ahi blo bhi : Nat) (m : MatchBlock) : Prop :=
  alo ≤ m.i ∧ m.i + m.k ≤ ahi ∧ blo ≤ m.j ∧ m.j + m.k ≤ bhi ∧
    ∀ t, t < m.k → a[m.i + t]? = b[m.j + t]?

/-- Soundness of a `j2len` row of the `find_longest_match` dynamic program:
before row `i` is processed, a non-zero entry at `j` records a diagonal
match of that length ending at `(i - 1, j)`, within the column window and no
longer than the rows or columns available. -/
def RowInv (a b : List Tok) (alo blo bhi i : Nat) (f : Nat → Nat) : Prop :=
  ∀ j, f j ≠ 0 → blo ≤ j ∧ j < bhi ∧ f j ≤ j + 1 - blo ∧ f j + alo ≤ i ∧
    ∀ t, t < f j → a[i - 1 - t]? = b[j - t]?

/-- Well-formedness of one opcode of the walk over chained blocks: ranges
ordered and bounded, and non-empty on the sides its tag consumes. -/
def OpcodeWF (la lb : Nat) (oc : Opcode) : Prop :=
  oc.i1 ≤ oc.i2 ∧ oc.i2 ≤ la ∧ oc.j1 ≤ oc.j2 ∧ oc.j2 ≤ lb ∧
    (oc.tag = OpTag.equal → oc.i1 < oc.i2 ∧ oc.j1 < oc.j2) ∧
    (oc.tag = OpTag.delete → oc.i1 < oc.i2) ∧
    (oc.tag = OpTag.insert → oc.j1 < oc.j2) ∧
    (oc.tag = OpTag.replace → oc.i1 < oc.i2 ∧ oc.j1 < oc.j2)

/-- The a-side token contribution of one opcode to the reconstruction of the
old tokenization (what `equal`, `delete` and the delete half of `replace`
consume). -/
def opASlice (oldWords : List Tok) (oc : Opcode) : List Tok :=
  match oc.tag with
  | OpTag.insert => []
  | _ => slice oldWords oc.i1 oc.i2

/-- The b-side token contribution of one opcode to the reconstruction of the
new tokenization (the source renders `equal` spans from the old words; the
two slices agree on matching blocks). -/
def opBSlice (oldWords newWords : List Tok) (oc : Opcode) : List Tok :=
  match oc.tag with
  | OpTag.delete => []
  | OpTag.equal => slice oldWords oc.i1 oc.i2
  | _ => slice newWords oc.j1 oc.j2

/-- The space run that the `apply_visual_diff` loop emits after a span when
the following span is `equal` (helper for relating the loop to the amended
separator rule). -/
def sepHead : List DiffOperation → List DocRun
  | op :: _ => if op.operation = DiffTag.equal then [spaceRun] else []
  | [] => []

/-! # Theorems -/

/-! ## Generic list and string lemmas -/

theorem filterLength_mono {p q : Char → Bool} (l : Str)
    (h : ∀ c, p c = true → q c = true) :
    (l.filter p).length ≤ (l.filter q).length := by
  induction l with
  | nil => simp
  | cons c rest ih =>
    by_cases hp : p c = true
    · simp [List.filter_cons, hp, h c hp]
      omega
    · simp only [List.filter_cons]
      rw [if_neg (by simp [hp])]
      by_cases hq : q c = true
      · simp [hq]; omega
      · rw [if_neg (by simp [hq])]; exact ih

theorem arabic_not_space_newline {c : Char} (h : isArabicChar c = true) :
    (c != ' ' && c != '\n') = true := by
  have hlow : 0x600 ≤ c.toNat := by
    simp only [isArabicChar, decide_eq_true_eq] at h
    omega
  have hs : c ≠ ' ' := by
    intro hc; subst hc
    have : (' ').toNat = 32 := by decide
    omega
  have hn : c ≠ '\n' := by
    intro hc; subst hc
    have : ('\n').toNat = 10 := by decide
    omega
  simp [hs, hn]

theorem arabic_not_whitespace {c : Char} (h : isArabicChar c = true) :
    pyIsSpace c = false := by
  simp only [isArabicChar, decide_eq_true_eq] at h
  unfold pyIsSpace
  simp only [List.mem_cons, List.not_mem_nil, decide_eq_false_iff_not, or_false,
    not_false_eq_true, and_true]
  push_neg
  omega

/-! ## Claim C8: the Arabic script ratio -/

/-- C8 (corrected): the computed Arabic ratio uses, as its denominator, the
count of characters other than `' '` and `'\n'` — not the count of all
non-whitespace characters as the claim states. With that denominator, all
the remaining clauses hold: the ratio is that quotient (0 when the
denominator is 0), lies in [0, 1], is 0 when the text has no Arabic
characters, and is also 0 whenever the text has no non-whitespace
characters at all. -/
theorem C8_ratio_amended (text : Str) :
    (arabicRatioOf text =
      if 0 < totalCharsOf text then
        (((text.filter isArabicChar).length : ℚ) / (totalCharsOf text : ℚ)) else 0) ∧
    0 ≤ arabicRatioOf text ∧ arabicRatioOf text ≤ 1 ∧
    (totalCharsOf text = 0 → arabicRatioOf text = 0) ∧
    ((text.filter isArabicChar).length = 0 → arabicRatioOf text = 0) ∧
    (nonWhitespaceCount text = 0 → arabicRatioOf text = 0) := by
  have hle : (text.filter isArabicChar).length ≤ totalCharsOf text :=
    filterLength_mono text (fun c hc => arabic_not_space_newline hc)
  refine ⟨rfl, ?_, ?_, ?_, ?_, ?_⟩
  · unfold arabicRatioOf
    split
    · positivity
    · norm_num
  · unfold arabicRatioOf
    split
    · rename_i h
      rw [div_le_one (by exact_mod_cast h)]
      exact_mod_cast hle
    · norm_num
  · intro h; unfold arabicRatioOf; rw [if_neg (by omega)]
  · intro h; unfold arabicRatioOf; split
    · rw [h]; norm_num
    · rfl
  · intro h
    have key : (text.filter isArabicChar).length ≤
        (text.filter (fun c => !pyIsSpace c)).length :=
      filterLength_mono text (fun c hc => by
        rw [arabic_not_whitespace hc]; rfl)
    unfold nonWhitespaceCount at h
    have hz : (text.filter isArabicChar).length = 0 := by omega
    unfold arabicRatioOf; split
    · rw [hz]; norm_num
    · rfl

/-- C8 counterexample: for the text `"\tب"` (a tab and one Arabic letter)
the code computes ratio 1/2 — the tab is not removed by
`replace(' ', '').replace('\n', '')` — while the claim's formula (Arabic
count over non-whitespace count) gives 1. -/
theorem C8_ratio_counterexample :
    arabicRatioOf ['\t', 'ب'] = 1 / 2 ∧
    specScriptRatio ['\t', 'ب'] = 1 ∧
    arabicRatioOf ['\t', 'ب'] ≠ specScriptRatio ['\t', 'ب'] := by
  have h1 : totalCharsOf ['\t', 'ب'] = 2 := by decide
  have h2 : nonWhitespaceCount ['\t', 'ب'] = 1 := by decide
  have h3 : ((['\t', 'ب'] : Str).filter isArabicChar).length = 1 := by decide
  refine ⟨?_, ?_, ?_⟩
  · unfold arabicRatioOf; rw [h1, h3]; norm_num
  · unfold specScriptRatio; rw [h2, h3]; norm_num
  · unfold arabicRatioOf specScriptRatio; rw [h1, h2, h3]; norm_num

/-! ## Claim C9: font extraction -/

theorem updateFromRun_name (info : FontInfo) (r : RunInfo) :
    (updateFromRun info r).name =
      (if truthyStr r.fontName then r.fontName else info.name) := by
  unfold updateFromRun
  cases r.fontSizePt with
  | none =>
    cases r.colorRGB <;> by_cases h : truthyStr r.fontName = true <;> simp [h]
  | some sz =>
    cases r.colorRGB <;> by_cases h : truthyStr r.fontName = true <;>
      by_cases hz : sz = 0 <;> simp [h, hz]

theorem extractFontLoop_name (runs : List RunInfo) :
    ∀ info : FontInfo, truthyStr info.name = false →
      (extractFontLoop runs info).name =
        (match firstNamedFont runs with
         | some n => some n
         | none => info.name) := by
  induction runs with
  | nil => intro info hinfo; simp [extractFontLoop, firstNamedFont]
  | cons r rs ih =>
    intro info hinfo
    unfold extractFontLoop firstNamedFont
    by_cases hblank : (pyStrip r.text).isEmpty = true
    · rw [if_pos hblank, if_pos hblank]
      exact ih info hinfo
    · rw [if_neg hblank, if_neg hblank]
      by_cases hname : truthyStr r.fontName = true
      · rw [if_pos hname]
        have h4 : (updateFromRun info r).name = r.fontName := by
          rw [updateFromRun_name, if_pos hname]
        have h4t : truthyStr (updateFromRun info r).name = true := by
          rw [h4]; exact hname
        rw [if_pos h4t, h4]
        cases hfn : r.fontName with
        | none => rw [hfn] at hname; simp [truthyStr] at hname
        | some s => rfl
      · rw [if_neg hname]
        have h4 : (updateFromRun info r).name = info.name := by
          rw [updateFromRun_name, if_neg hname]
        have h4f : truthyStr (updateFromRun info r).name = false := by
          rw [h4]; exact hinfo
        rw [if_neg (by simp [h4f])]
        rw [ih _ h4f, h4]

theorem extractFontLoop_blank (runs : List RunInfo)
    (h : ∀ r ∈ runs, (pyStrip r.text).isEmpty = true) :
    ∀ info : FontInfo, extractFontLoop runs info = info := by
  induction runs with
  | nil => intro info; rfl
  | cons r rs ih =>
    intro info
    unfold extractFontLoop
    rw [if_pos (h r (by simp))]
    exact ih (fun x hx => h x (by simp [hx])) info

theorem updateFromRun_arabic (info : FontInfo) (r : RunInfo) :
    (updateFromRun info r).isArabicFont =
      (if truthyStr r.fontName then
        arabicFonts.contains (pyLower (r.fontName.getD []))
       else info.isArabicFont) := by
  unfold updateFromRun
  cases r.fontSizePt with
  | none =>
    cases r.colorRGB <;> by_cases h : truthyStr r.fontName = true <;> simp [h]
  | some sz =>
    cases r.colorRGB <;> by_cases h : truthyStr r.fontName = true <;>
      by_cases hz : sz = 0 <;> simp [h, hz]

theorem extractFontLoop_foldl (runs : List RunInfo) :
    ∀ info : FontInfo, truthyStr info.name = false →
      extractFontLoop runs info = (runsScanned runs).foldl updateFromRun info := by
  induction runs with
  | nil => intro info hinfo; rfl
  | cons r rs ih =>
    intro info hinfo
    unfold extractFontLoop runsScanned
    by_cases hblank : (pyStrip r.text).isEmpty = true
    · rw [if_pos hblank, if_pos hblank]
      exact ih info hinfo
    · rw [if_neg hblank, if_neg hblank]
      by_cases hname : truthyStr r.fontName = true
      · have h4t : truthyStr (updateFromRun info r).name = true := by
          rw [updateFromRun_name, if_pos hname]; exact hname
        rw [if_pos h4t, if_pos hname]
        rfl
      · have h4f : truthyStr (updateFromRun info r).name = false := by
          rw [updateFromRun_name, if_neg hname]; exact hinfo
        rw [if_neg (by simp [h4f]), if_neg hname]
        exact ih _ h4f

theorem extractFontLoop_arabic (runs : List RunInfo) :
    ∀ info : FontInfo, truthyStr info.name = false →
      (extractFontLoop runs info).isArabicFont =
        (match firstNamedFont runs with
         | some n => arabicFonts.contains (pyLower n)
         | none => info.isArabicFont) := by
  induction runs with
  | nil => intro info hinfo; simp [extractFontLoop, firstNamedFont]
  | cons r rs ih =>
    intro info hinfo
    unfold extractFontLoop firstNamedFont
    by_cases hblank : (pyStrip r.text).isEmpty = true
    · rw [if_pos hblank, if_pos hblank]
      exact ih info hinfo
    · rw [if_neg hblank, if_neg hblank]
      by_cases hname : truthyStr r.fontName = true
      · rw [if_pos hname]
        have h4t : truthyStr (updateFromRun info r).name = true := by
          rw [updateFromRun_name, if_pos hname]; exact hname
        rw [if_pos h4t]
        have h5 : (updateFromRun info r).isArabicFont =
            arabicFonts.contains (pyLower (r.fontName.getD [])) := by
          rw [updateFromRun_arabic, if_pos hname]
        rw [h5]
        cases hfn : r.fontName with
        | none => rw [hfn] at hname; simp [truthyStr] at hname
        | some s => rfl
      · rw [if_neg hname]
        have h4f : truthyStr (updateFromRun info r).name = false := by
          rw [updateFromRun_name, if_neg hname]; exact hinfo
        rw [if_neg (by simp [h4f])]
        have h5 : (updateFromRun info r).isArabicFont = info.isArabicFont := by
          rw [updateFromRun_arabic, if_neg hname]
        rw [ih _ h4f, h5]

/-- C9 (corrected): font extraction scans the runs in order, skips
blank-text runs, and stops after the first significant run that names a
font. The returned descriptor is the per-run update folded over exactly the
significant runs scanned (all of them when no run names a font), so size,
bold, italic and colour accumulate from every significant run visited on
the way rather than all coming from the named run; the name — and the
Arabic-font flag derived from it — is that of the first significant run
that names a font, and when no significant run names one the result's name
is `none` and the flag is false, while the other fields may still have been
set; the all-default descriptor is returned when the paragraph has no
significant run at all. -/
theorem C9_font_extraction_amended (runs : List RunInfo) :
    extractFontInfo runs = (runsScanned runs).foldl updateFromRun ({} : FontInfo) ∧
    (extractFontInfo runs).name = firstNamedFont runs ∧
    (∀ n : Str, firstNamedFont runs = some n →
      (extractFontInfo runs).isArabicFont = arabicFonts.contains (pyLower n)) ∧
    (firstNamedFont runs = none →
      (extractFontInfo runs).name = none ∧
      (extractFontInfo runs).isArabicFont = false) ∧
    ((∀ r ∈ runs, (pyStrip r.text).isEmpty = true) →
      extractFontInfo runs = ({} : FontInfo)) := by
  have hbase := extractFontLoop_name runs ({} : FontInfo) rfl
  have harabic := extractFontLoop_arabic runs ({} : FontInfo) rfl
  refine ⟨?_, ?_, ?_, ?_, ?_⟩
  · exact extractFontLoop_foldl runs ({} : FontInfo) rfl
  · unfold extractFontInfo
    rw [hbase]
    cases firstNamedFont runs <;> rfl
  · intro n hn
    unfold extractFontInfo
    rw [harabic, hn]
  · intro h
    refine ⟨?_, ?_⟩
    · unfold extractFontInfo
      rw [hbase, h]
    · unfold extractFontInfo
      rw [harabic, h]
  · intro h
    exact extractFontLoop_blank runs h {}

/-- C9 counterexample: a single significant run that sets bold but no font
name. The claim demands the all-default descriptor; the code returns one
with `bold = true`. -/
theorem C9_font_extraction_counterexample :
    (([{ text := ['x'], bold := some true }] : List RunInfo).all
      (fun r => r.fontName == none)) = true ∧
    (extractFontInfo [{ text := ['x'], bold := some true }]).bold = true ∧
    extractFontInfo [{ text := ['x'], bold := some true }] ≠ ({} : FontInfo) := by
  refine ⟨by decide, by decide, by decide⟩

/-! ## Claim C1: scripture is never sent to the gateway -/

set_option maxHeartbeats 1000000 in
theorem detectBlockType_ne_explanation (text : Str) (fontInfo : FontInfo)
    (arabicRatio : ℚ) (hasArabic hasCyrillic : Bool) (styleName : Str) :
    detectBlockType text fontInfo arabicRatio hasArabic hasCyrillic styleName ≠
      BlockType.explanation := by
  unfold detectBlockType
  dsimp only
  repeat' split
  all_goals decide

/-- C1 (confirmed): every classified block with type AYAH (the spec's
SCRIPTURE) has `can_process_with_ai = false`; eligibility holds exactly when
the type is TRANSLATION, COMMENTARY or EXPLANATION (the classifier in the
source never produces EXPLANATION, and eligibility is computed as membership
in COMMENTARY/TRANSLATION); and `edit_block` on a non-eligible block returns
a result that does not depend on the gateway at all — the same result for
any two gateways — with the edited text equal to the original and no change
recorded. -/
theorem C1_scripture_never_edited (index : Nat) (p : Paragraph) (g g' : Gateway) :
    ((classifyParagraph index p).blockType = BlockType.ayah →
      (classifyParagraph index p).canProcessWithAI = false) ∧
    ((classifyParagraph index p).canProcessWithAI = true ↔
      ((classifyParagraph index p).blockType = BlockType.translation ∨
       (classifyParagraph index p).blockType = BlockType.commentary ∨
       (classifyParagraph index p).blockType = BlockType.explanation)) ∧
    ((classifyParagraph index p).canProcessWithAI = false →
      editBlock g (classifyParagraph index p) = editBlock g' (classifyParagraph index p) ∧
      (editBlock g (classifyParagraph index p)).editedText =
        (classifyParagraph index p).text ∧
      (editBlock g (classifyParagraph index p)).wasChanged = false) := by
  have hty : (classifyParagraph index p).blockType =
      detectBlockType p.text (extractFontInfo p.runs) (arabicRatioOf p.text)
        (decide (0 < (countScriptChars p.text).1))
        (decide (0 < (countScriptChars p.text).2.1)) (p.styleName.getD []) := rfl
  have hcan : (classifyParagraph index p).canProcessWithAI =
      decide ((classifyParagraph index p).blockType = BlockType.commentary ∨
        (classifyParagraph index p).blockType = BlockType.translation) := rfl
  refine ⟨?_, ?_, ?_⟩
  · intro hayah
    rw [hcan, hayah]
    decide
  · rw [hcan]
    constructor
    · intro h
      rcases of_decide_eq_true h with h' | h'
      · exact Or.inr (Or.inl h')
      · exact Or.inl h'
    · intro h
      rcases h with h' | h' | h'
      · exact decide_eq_true (Or.inr h')
      · exact decide_eq_true (Or.inl h')
      · exact absurd (hty ▸ h') (detectBlockType_ne_explanation _ _ _ _ _ _)
  · intro hno
    unfold editBlock
    rw [hno]
    exact ⟨rfl, rfl, rfl⟩

/-! ## Claim C7: the explanatory-label rule of the full classifier -/

/-- C7 (confirmed, against the spec-modelled classifier): in the full
decision list, a paragraph whose stripped text begins with a known
explanatory-label marker is classified EXPLANATION whenever the empty rule
and the header rule did not already fire — for every ratio, font and script
signal, so the rule pre-empts all scripture-ratio rules; and the empty and
header rules do pre-empt it, in that order. -/
theorem C7_explanation_rule (text : Str) (fontInfo : FontInfo) (arabicRatio : ℚ)
    (hasArabic hasCyrillic : Bool) (styleName : Str) :
    ((pyStrip text).isEmpty = true →
      detectBlockTypeFull text fontInfo arabicRatio hasArabic hasCyrillic styleName =
        BlockType.empty) ∧
    ((pyStrip text).isEmpty = false →
      (!styleName.isEmpty && containsSub ("heading".toList) (pyLower styleName)) = true →
      detectBlockTypeFull text fontInfo arabicRatio hasArabic hasCyrillic styleName =
        BlockType.header) ∧
    ((pyStrip text).isEmpty = false →
      (!styleName.isEmpty && containsSub ("heading".toList) (pyLower styleName)) = false →
      startsWithExplanationMarker (pyStrip text) = true →
      detectBlockTypeFull text fontInfo arabicRatio hasArabic hasCyrillic styleName =
        BlockType.explanation) := by
  refine ⟨?_, ?_, ?_⟩
  · intro h
    unfold detectBlockTypeFull
    rw [if_pos h]
  · intro h1 h2
    unfold detectBlockTypeFull
    rw [if_neg (show ¬(pyStrip text).isEmpty = true by rw [h1]; decide),
      if_pos h2]
  · intro h1 h2 h3
    unfold detectBlockTypeFull
    rw [if_neg (show ¬(pyStrip text).isEmpty = true by rw [h1]; decide),
      if_neg (show ¬(!styleName.isEmpty &&
        containsSub ("heading".toList) (pyLower styleName)) = true by
          rw [h2]; decide),
      if_pos h3]

/-! ## Claim C10: guard clauses of the visual-diff writer -/

/-- C10 (confirmed): `apply_visual_diff` returns `False` and leaves every
paragraph of the document unchanged when the paragraph index is out of range
or when the stripped original and edited texts coincide (both guards return
before the paragraph is touched, so no exception can arise — the embedding
is a total function); `apply_ayah_brackets` likewise returns `False` without
modifying the document for an out-of-range index. -/
theorem C10_out_of_range_guards (doc : Document) (paragraphIndex : Nat)
    (original edited text : Str) :
    ((doc.length ≤ paragraphIndex ∨ pyStrip original = pyStrip edited) →
      applyVisualDiff doc paragraphIndex original edited = (false, doc)) ∧
    (doc.length ≤ paragraphIndex →
      applyAyahBrackets doc paragraphIndex text = (false, doc)) := by
  constructor
  · intro h
    unfold applyVisualDiff
    rcases h with h | h
    · rw [if_pos h]
    · by_cases hidx : doc.length ≤ paragraphIndex
      · rw [if_pos hidx]
      · rw [if_neg hidx, if_pos h]
  · intro h
    unfold applyAyahBrackets
    rw [if_pos h]

/-! ## Claim C3: cache round-trip -/

theorem decDigit_toNat {d : Nat} (h : d < 10) : (decDigit d).toNat = 48 + d := by
  interval_cases d <;> decide

theorem natToDec_ne_nil (n : Nat) : natToDec n ≠ [] := by
  unfold natToDec
  split
  · exact List.cons_ne_nil _ _
  · intro hcontra
    exact absurd (List.append_eq_nil.mp hcontra).2 (List.cons_ne_nil _ _)

theorem isEmpty_false_of_ne_nil {s : Str} (h : s ≠ []) : s.isEmpty = false := by
  cases s with
  | nil => exact absurd rfl h
  | cons c rest => rfl

theorem decToNatGo_append (s : Str) (d acc : Nat) (hd : d < 10) :
    decToNatGo (s ++ [decDigit d]) acc =
      (decToNatGo s acc).map (fun m => m * 10 + d) := by
  induction s generalizing acc with
  | nil =>
    simp only [List.nil_append, decToNatGo]
    rw [if_pos (by rw [decDigit_toNat hd]; omega)]
    show _ = some (acc * 10 + d)
    rw [decDigit_toNat hd]
    congr 1
    omega
  | cons c rest ih =>
    simp only [List.cons_append, decToNatGo]
    by_cases hc : 48 ≤ c.toNat ∧ c.toNat ≤ 57
    · rw [if_pos hc, if_pos hc]
      exact ih _
    · rw [if_neg hc, if_neg hc]
      rfl

theorem decToNat_natToDec (n : Nat) : decToNat (natToDec n) = some n := by
  induction n using Nat.strong_induction_on with
  | _ n ih =>
    by_cases h : n < 10
    · unfold natToDec
      rw [dif_pos h]
      unfold decToNat
      rw [if_neg (by simp)]
      unfold decToNatGo
      rw [if_pos (by rw [decDigit_toNat h]; omega)]
      unfold decToNatGo
      rw [decDigit_toNat h]
      congr 1
      omega
    · unfold natToDec
      rw [dif_neg h]
      unfold decToNat
      rw [if_neg (by
        rw [isEmpty_false_of_ne_nil (fun hcontra =>
          absurd (List.append_eq_nil.mp hcontra).2 (List.cons_ne_nil _ _))]
        decide)]
      rw [decToNatGo_append _ _ _ (Nat.mod_lt n (by omega))]
      have ihq := ih (n / 10) (Nat.div_lt_self (by omega) (by omega))
      unfold decToNat at ihq
      rw [if_neg (by
        rw [isEmpty_false_of_ne_nil (natToDec_ne_nil (n / 10))]
        decide)] at ihq
      rw [ihq]
      show some (n / 10 * 10 + n % 10) = some n
      congr 1
      omega

theorem parseResult_serializeResult (r : EditResult) :
    parseResult (serializeResult r) = some r := by
  cases r with
  | mk idx orig edited chg err skp =>
    cases err <;> rfl

/-- C3 (confirmed, against the spec-modelled EditCache): writing any set of
correction results through the cache file and reloading reproduces the
identical in-memory cache — in particular, every block index looks up the
identical result, failure descriptor and unchanged flag included. -/
theorem C3_cache_round_trip (c : EditCacheMap) :
    loadCacheFile (saveCacheFile c) = some c ∧
    ∀ i : Nat, (loadCacheFile (saveCacheFile c)).map (fun c2 => cacheGetResult c2 i) =
      some (cacheGetResult c i) := by
  have main : loadCacheFile (saveCacheFile c) = some c := by
    induction c with
    | nil => rfl
    | cons e rest ih =>
      obtain ⟨i, r⟩ := e
      show loadCacheFile ((natToDec i, serializeResult r) ::
        rest.map (fun e => (natToDec e.1, serializeResult e.2))) = some ((i, r) :: rest)
      unfold loadCacheFile
      rw [decToNat_natToDec, parseResult_serializeResult]
      have hrest : loadCacheFile
          (rest.map (fun e => (natToDec e.1, serializeResult e.2))) = some rest := ih
      rw [hrest]
  exact ⟨main, fun i => by rw [main]; rfl⟩

/-! ## Claim C5: bounded retry with exponential backoff -/

/-- C5 (confirmed, against the spec-modelled retry policy): when the gateway
fails on every attempt, the retry loop makes exactly 3 calls, sleeps the
exponentially doubling delays `base` and `base·2` between consecutive
attempts, and surfaces the transient error as the failure outcome; and for
every gateway behaviour the number of attempts never exceeds the cap of 3. -/
theorem C5_retry_backoff (gw : FlakyGateway) (baseDelay : ℚ) (e : Str)
    (hfail : ∀ k, gw k = Except.error e) :
    runRetry gw baseDelay 3 =
      ⟨3, [baseDelay, baseDelay * 2], Except.error e⟩ ∧
    ∀ gw2 : FlakyGateway, (runRetry gw2 baseDelay 3).attempts ≤ 3 := by
  constructor
  · have h0 := hfail 0
    have h1 := hfail 1
    have h2 := hfail 2
    simp only [runRetry]
    show runRetryGo gw baseDelay 0 (2 + 1) = _
    rw [runRetryGo, h0]
    simp only [if_neg (show ¬(2 = 0) by omega)]
    show RetryTrace.mk (runRetryGo gw baseDelay 1 (1 + 1)).attempts
      (baseDelay * 2 ^ 0 :: (runRetryGo gw baseDelay 1 (1 + 1)).delays)
      (runRetryGo gw baseDelay 1 (1 + 1)).outcome = _
    rw [runRetryGo, h1]
    simp only [if_neg (show ¬(1 = 0) by omega)]
    show RetryTrace.mk (runRetryGo gw baseDelay 2 (0 + 1)).attempts
      (baseDelay * 2 ^ 0 :: baseDelay * 2 ^ 1 ::
        (runRetryGo gw baseDelay 2 (0 + 1)).delays)
      (runRetryGo gw baseDelay 2 (0 + 1)).outcome = _
    rw [runRetryGo, h2]
    simp only [if_pos rfl]
    norm_num
  · intro gw2
    simp only [runRetry]
    show (runRetryGo gw2 baseDelay 0 (2 + 1)).attempts ≤ 3
    rw [runRetryGo]
    cases gw2 0 with
    | ok t => simp
    | error e0 =>
      simp only [if_neg (show ¬(2 = 0) by omega)]
      rw [runRetryGo]
      cases gw2 1 with
      | ok t => simp
      | error e1 =>
        simp only [if_neg (show ¬(1 = 0) by omega)]
        rw [runRetryGo]
        cases gw2 2 with
        | ok t => simp
        | error e2 => simp

/-- Witness for C5 at a concrete always-failing gateway and base delay 1. -/
theorem C5_retry_backoff_witness :
    runRetry (fun _ => Except.error ("transient".toList)) 1 3 =
      ⟨3, [1, 1 * 2], Except.error ("transient".toList)⟩ ∧
    ∀ gw2 : FlakyGateway, (runRetry gw2 1 3).attempts ≤ 3 :=
  C5_retry_backoff (fun _ => Except.error ("transient".toList)) 1
    ("transient".toList) (fun _ => rfl)

/-! ## Claim C4: a failed correction halts the remaining queue -/

theorem find?_cons_true {α : Type _} (p : α → Bool) (a : α) (l : List α)
    (h : p a = true) : List.find? p (a :: l) = some a := by
  show (match p a with | true => some a | false => List.find? p l) = some a
  rw [h]

theorem find?_cons_false {α : Type _} (p : α → Bool) (a : α) (l : List α)
    (h : p a = false) : List.find? p (a :: l) = List.find? p l := by
  show (match p a with | true => some a | false => List.find? p l) = List.find? p l
  rw [h]

theorem find?_map_overwrite (rest : List (Nat × EditResult)) (r : EditResult)
    (i : Nat) (h : i ≠ r.blockIndex) :
    List.find? (fun e => e.1 == i)
      (rest.map (fun e => if e.1 == r.blockIndex then (e.1, r) else e)) =
    List.find? (fun e => e.1 == i) rest := by
  induction rest with
  | nil => rfl
  | cons e rest ih =>
    simp only [List.map_cons]
    by_cases hei : (e.1 == i) = true
    · have hexi : e.1 = i := by simpa [beq_iff_eq] using hei
      have her : (e.1 == r.blockIndex) = false := by
        simp only [beq_eq_false_iff_ne, ne_eq, hexi]
        exact h
      rw [if_neg (by simp [her])]
      rw [find?_cons_true (fun e => e.1 == i) e _ hei,
        find?_cons_true (fun e => e.1 == i) e _ hei]
    · have heif : (e.1 == i) = false := by simpa using hei
      by_cases her : (e.1 == r.blockIndex) = true
      · rw [if_pos (by simp [her])]
        rw [find?_cons_false (fun e => e.1 == i) (e.1, r) _ heif,
          find?_cons_false (fun e => e.1 == i) e _ heif]
        exact ih
      · rw [if_neg (by simp [her])]
        rw [find?_cons_false (fun e => e.1 == i) e _ heif,
          find?_cons_false (fun e => e.1 == i) e _ heif]
        exact ih

theorem cacheGetResult_save_ne (c : EditCacheMap) (r : EditResult) (i : Nat)
    (h : i ≠ r.blockIndex) :
    cacheGetResult (cacheSaveResult c r) i = cacheGetResult c i := by
  unfold cacheSaveResult
  split
  · unfold cacheGetResult
    rw [find?_map_overwrite c r i h]
  · unfold cacheGetResult
    rw [List.find?_append]
    have hone : List.find? (fun e => e.1 == i) [(r.blockIndex, r)] = none := by
      rw [find?_cons_false (fun e => e.1 == i) (r.blockIndex, r) []
        (by simp; omega)]
      rfl
    rw [hone]
    cases List.find? (fun e => e.1 == i) c <;> rfl

theorem appLoop_halt_aux (editor : TafsirBlock → EditResult)
    (b : TafsirBlock) (late : List TafsirBlock) (c0 : EditCacheMap) :
    ∀ (early : List TafsirBlock) (c : EditCacheMap),
    (∀ x ∈ early, (editor x).blockIndex = x.index) →
    ((early ++ [b]).map (fun x => x.index)).Nodup →
    (∀ x ∈ early, cacheGetResult c0 x.index ≠ none ∨ (editor x).error = none) →
    cacheGetResult c0 b.index = none →
    (editor b).error.isSome = true →
    (∀ y ∈ early ++ [b], cacheGetResult c y.index = cacheGetResult c0 y.index) →
    appLoop editor (early ++ b :: late) c =
      ⟨early.map (fun x => (cacheGetResult c0 x.index).getD (editor x)),
       cacheSaveResult
         (early.foldl (fun acc x =>
            if cacheGetResult c0 x.index = none then cacheSaveResult acc (editor x)
            else acc) c)
         (editor b),
       (early.filter (fun x => cacheGetResult c0 x.index == none)).map
         (fun x => x.index) ++ [b.index]⟩ := by
  intro early
  induction early with
  | nil =>
    intro c _ _ _ hbfresh hbfail hagree
    have hcb : cacheGetResult c b.index = none := by
      rw [hagree b (by simp), hbfresh]
    show appLoop editor (b :: late) c = _
    rw [appLoop, hcb]
    simp only []
    rw [hbfail]
    rfl
  | cons x early ih =>
    intro c hidx hnodup hearly hbfresh hbfail hagree
    have hxagree : cacheGetResult c x.index = cacheGetResult c0 x.index :=
      hagree x (by simp)
    simp only [List.cons_append, List.map_cons, List.nodup_cons] at hnodup
    have hrest_nodup := hnodup.2
    have hx_notin := hnodup.1
    have hidx' : ∀ y ∈ early, (editor y).blockIndex = y.index :=
      fun y hy => hidx y (by simp [hy])
    have hearly' : ∀ y ∈ early, cacheGetResult c0 y.index ≠ none ∨ (editor y).error = none :=
      fun y hy => hearly y (by simp [hy])
    have hagree_tail : ∀ y ∈ early ++ [b],
        cacheGetResult c y.index = cacheGetResult c0 y.index := by
      intro y hy
      refine hagree y ?_
      rcases List.mem_append.mp hy with hmem | hmem
      · exact List.mem_cons_of_mem x (List.mem_append.mpr (Or.inl hmem))
      · exact List.mem_cons_of_mem x (List.mem_append.mpr (Or.inr hmem))
    show appLoop editor (x :: (early ++ b :: late)) c = _
    rw [appLoop]
    cases hx : cacheGetResult c0 x.index with
    | some r =>
      rw [hxagree, hx]
      simp only []
      rw [ih c hidx' hrest_nodup hearly' hbfresh hbfail hagree_tail]
      show (⟨r :: _, _, _⟩ : RunOutcome) = _
      simp only [List.map_cons, List.filter_cons, List.foldl_cons, hx,
        Option.getD_some]
      rw [if_neg (show ¬((some r == (none : Option EditResult)) = true) by simp),
        if_neg (show ¬(some r = (none : Option EditResult)) from
          fun hcontra => Option.noConfusion hcontra)]
    | none =>
      rw [hxagree, hx]
      simp only []
      have hxerr : (editor x).error = none := by
        rcases hearly x (by simp) with hcase | hcase
        · exact absurd hx hcase
        · exact hcase
      rw [show ((editor x).error.isSome = false) by rw [hxerr]; rfl]
      simp only [Bool.false_eq_true, if_false]
      have hxi : (editor x).blockIndex = x.index := hidx x (by simp)
      have hagree_save : ∀ y ∈ early ++ [b],
          cacheGetResult (cacheSaveResult c (editor x)) y.index =
            cacheGetResult c0 y.index := by
        intro y hy
        have hyne : y.index ≠ (editor x).blockIndex := by
          rw [hxi]
          intro hcontra
          exact hx_notin (hcontra ▸ List.mem_map_of_mem (fun z => z.index) hy)
        rw [cacheGetResult_save_ne _ _ _ hyne]
        exact hagree_tail y hy
      rw [ih (cacheSaveResult c (editor x)) hidx' hrest_nodup hearly' hbfresh
        hbfail hagree_save]
      simp only [List.map_cons, List.filter_cons, List.foldl_cons, hx,
        Option.getD_none]
      rw [if_pos (show ((none : Option EditResult) == none) = true by decide)]
      rfl

/-- C4 (confirmed): in the app's correction loop, when the first fresh
(uncached) correction attempt that fails is the one for block `b` — every
earlier block is either served from the cache or corrected without error —
the loop halts there: the blocks after `b` are neither processed nor sent to
the editor (the fresh-call list is exactly the earlier fresh blocks' indices
followed by `b.index`, and the in-memory result list holds exactly the
earlier blocks' results), and the persisted cache is the initial cache plus
a written-through entry for every earlier fresh result plus the Failed entry
for `b` itself. -/
theorem C4_failure_halts_queue (editor : TafsirBlock → EditResult)
    (early : List TafsirBlock) (b : TafsirBlock) (late : List TafsirBlock)
    (c0 : EditCacheMap)
    (hidx : ∀ x ∈ early, (editor x).blockIndex = x.index)
    (hnodup : ((early ++ [b]).map (fun x => x.index)).Nodup)
    (hearly : ∀ x ∈ early, cacheGetResult c0 x.index ≠ none ∨ (editor x).error = none)
    (hbfresh : cacheGetResult c0 b.index = none)
    (hbfail : (editor b).error.isSome = true) :
    appLoop editor (early ++ b :: late) c0 =
      ⟨early.map (fun x => (cacheGetResult c0 x.index).getD (editor x)),
       cacheSaveResult
         (early.foldl (fun acc x =>
            if cacheGetResult c0 x.index = none then cacheSaveResult acc (editor x)
            else acc) c0)
         (editor b),
       (early.filter (fun x => cacheGetResult c0 x.index == none)).map
         (fun x => x.index) ++ [b.index]⟩ :=
  appLoop_halt_aux editor b late c0 early c0 hidx hnodup hearly hbfresh hbfail
    (fun _ _ => rfl)

/-- Witness for C4: a three-block queue over an empty cache whose middle
block fails fresh — the loop returns only the first block's result, the
editor is called only on blocks 0 and 1, block 2 is never touched, and the
cache holds the first result plus the Failed entry. -/
theorem C4_failure_halts_queue_witness :
    appLoop
      (fun blk => { blockIndex := blk.index, originalText := blk.text,
                    editedText := blk.text, wasChanged := false,
                    error := if blk.index = 1 then some ['e'] else none })
      ([{ index := 0, blockType := BlockType.commentary, text := ['a'] }] ++
        { index := 1, blockType := BlockType.commentary, text := ['b'] } ::
        [{ index := 2, blockType := BlockType.commentary, text := ['c'] }]) [] =
      ⟨[{ blockIndex := 0, originalText := ['a'], editedText := ['a'],
          wasChanged := false, error := none }],
       [(0, { blockIndex := 0, originalText := ['a'], editedText := ['a'],
              wasChanged := false, error := none }),
        (1, { blockIndex := 1, originalText := ['b'], editedText := ['b'],
              wasChanged := false, error := some ['e'] })],
       [0, 1]⟩ := by
  rw [C4_failure_halts_queue
    (fun blk => { blockIndex := blk.index, originalText := blk.text,
                  editedText := blk.text, wasChanged := false,
                  error := if blk.index = 1 then some ['e'] else none })
    [{ index := 0, blockType := BlockType.commentary, text := ['a'] }]
    { index := 1, blockType := BlockType.commentary, text := ['b'] }
    [{ index := 2, blockType := BlockType.commentary, text := ['c'] }]
    [] (by decide) (by decide) (by decide) (by decide) (by decide)]
  decide

/-! ## Slice lemmas -/

theorem slice_append (l : List α) (i m j : Nat) (h1 : i ≤ m) (h2 : m ≤ j) :
    slice l i m ++ slice l m j = slice l i j := by
  unfold slice
  have hdrop : l.drop m = (l.drop i).drop (m - i) := by
    rw [List.drop_drop]
    congr 1
    omega
  rw [hdrop]
  rw [show j - m = (j - i) - (m - i) by omega]
  generalize l.drop i = t
  rw [← List.take_add]
  congr 1
  omega

theorem slice_same (l : List α) (i : Nat) : slice l i i = [] := by
  unfold slice
  rw [Nat.sub_self]
  rfl

theorem getElem?_slice (l : List α) (i k t : Nat) :
    (slice l i (i + k))[t]? = if t < k then l[i + t]? else none := by
  unfold slice
  rw [show i + k - i = k by omega]
  rw [List.getElem?_take]
  by_cases h : t < k
  · rw [if_pos h, if_pos h, List.getElem?_drop]
  · rw [if_neg h, if_neg h]

theorem slice_eq_of_match (a b : List α) (i j k : Nat)
    (h : ∀ t, t < k → a[i + t]? = b[j + t]?) :
    slice a i (i + k) = slice b j (j + k) := by
  apply List.ext_getElem?
  intro t
  rw [getElem?_slice, getElem?_slice]
  by_cases ht : t < k
  · rw [if_pos ht, if_pos ht, h t ht]
  · rw [if_neg ht, if_neg ht]

theorem slice_full (l : List α) : slice l 0 l.length = l := by
  unfold slice
  rw [List.drop_zero, Nat.sub_zero, List.take_length]

theorem length_slice (l : List α) (i j : Nat) (h1 : i ≤ j) (h2 : j ≤ l.length) :
    (slice l i j).length = j - i := by
  unfold slice
  rw [List.length_take, List.length_drop]
  omega

theorem slice_ne_nil (l : List α) (i j : Nat) (h1 : i < j) (h2 : j ≤ l.length) :
    slice l i j ≠ [] := by
  intro hcontra
  have := length_slice l i j (by omega) h2
  rw [hcontra] at this
  simp at this
  omega

theorem mem_slice {l : List α} {i j : Nat} {x : α} (h : x ∈ slice l i j) :
    x ∈ l := by
  unfold slice at h
  exact List.mem_of_mem_drop (List.mem_of_mem_take h)

/-! ## Tokenization lemmas -/

theorem pySplitGo_tokens (s : Str) :
    ∀ cur, (∀ c ∈ cur, pyIsSpace c = false) →
      ∀ t ∈ pySplitGo s cur, t ≠ [] ∧ ∀ c ∈ t, pyIsSpace c = false := by
  induction s with
  | nil =>
    intro cur hcur t ht
    unfold pySplitGo at ht
    split at ht
    · exact absurd ht (List.not_mem_nil t)
    · rename_i hne
      rw [List.mem_singleton] at ht
      subst ht
      refine ⟨?_, ?_⟩
      · intro hcontra
        rw [List.reverse_eq_nil_iff] at hcontra
        rw [hcontra] at hne
        exact hne rfl
      · intro c hc
        exact hcur c (List.mem_reverse.mp hc)
  | cons c rest ih =>
    intro cur hcur t ht
    unfold pySplitGo at ht
    by_cases hsp : pyIsSpace c = true
    · rw [if_pos hsp] at ht
      split at ht
      · exact ih [] (by simp) t ht
      · rename_i hne
        rcases List.mem_cons.mp ht with h | h
        · subst h
          refine ⟨?_, ?_⟩
          · intro hcontra
            rw [List.reverse_eq_nil_iff] at hcontra
            rw [hcontra] at hne
            exact hne rfl
          · intro d hd
            exact hcur d (List.mem_reverse.mp hd)
        · exact ih [] (by simp) t h
    · rw [if_neg hsp] at ht
      refine ih (c :: cur) ?_ t ht
      intro d hd
      rcases List.mem_cons.mp hd with h | h
      · subst h
        simpa using hsp
      · exact hcur d h

theorem pySplit_tokens (s : Str) :
    ∀ t ∈ pySplit s, t ≠ [] ∧ ∀ c ∈ t, pyIsSpace c = false :=
  pySplitGo_tokens s [] (by simp)

theorem pySplitGo_chunk (w : Str) :
    ∀ s cur, (∀ c ∈ w, pyIsSpace c = false) →
      pySplitGo (w ++ s) cur = pySplitGo s (w.reverse ++ cur) := by
  induction w with
  | nil => intro s cur _; simp
  | cons c rest ih =>
    intro s cur hw
    show pySplitGo (c :: (rest ++ s)) cur = pySplitGo s ((c :: rest).reverse ++ cur)
    rw [show pySplitGo (c :: (rest ++ s)) cur = pySplitGo (rest ++ s) (c :: cur) from by
      show (if pyIsSpace c = true then
          if cur.isEmpty = true then pySplitGo (rest ++ s) []
          else cur.reverse :: pySplitGo (rest ++ s) []
        else pySplitGo (rest ++ s) (c :: cur)) = pySplitGo (rest ++ s) (c :: cur)
      rw [if_neg (by rw [hw c (by simp)]; decide)]]
    rw [ih s (c :: cur) (fun d hd => hw d (by simp [hd]))]
    congr 1
    simp

theorem pySplit_joinSpace (ws : List Str)
    (hws : ∀ w ∈ ws, w ≠ [] ∧ ∀ c ∈ w, pyIsSpace c = false) :
    pySplit (joinSpace ws) = ws := by
  induction ws with
  | nil => rfl
  | cons w ws ih =>
    cases ws with
    | nil =>
      show pySplitGo (joinSpace [w]) [] = [w]
      unfold joinSpace
      rw [show w = w ++ [] from by simp, pySplitGo_chunk w [] []
        (fun c hc => (hws w (by simp)).2 c (by simpa using hc))]
      unfold pySplitGo
      rw [if_neg (by
        simp only [List.append_nil, List.isEmpty_iff, List.reverse_eq_nil_iff]
        exact (hws w (by simp)).1)]
      simp
    | cons w2 ws2 =>
      show pySplitGo (joinSpace (w :: w2 :: ws2)) [] = w :: w2 :: ws2
      unfold joinSpace
      rw [show (w ++ ' ' :: joinSpace (w2 :: ws2) : Str) = w ++ (' ' :: joinSpace (w2 :: ws2)) from rfl]
      rw [pySplitGo_chunk w _ [] (fun c hc => (hws w (by simp)).2 c hc)]
      unfold pySplitGo
      rw [if_pos (by decide)]
      rw [if_neg (by
        simp only [List.append_nil, List.isEmpty_iff, List.reverse_eq_nil_iff]
        exact (hws w (by simp)).1)]
      simp only [List.append_nil, List.reverse_reverse]
      congr 1
      exact ih (fun v hv => hws v (by simp [hv]))

theorem joinSpace_ne_nil (ws : List Str) (h : ws ≠ [])
    (hne : ∀ w ∈ ws, w ≠ []) : joinSpace ws ≠ [] := by
  cases ws with
  | nil => exact absurd rfl h
  | cons w ws =>
    cases ws with
    | nil =>
      show w ≠ []
      exact hne w (by simp)
    | cons w2 ws2 =>
      show w ++ ' ' :: joinSpace (w2 :: ws2) ≠ []
      simp

/-! ## Soundness of `find_longest_match` -/

theorem b2j_mem {b : List Tok} {x : Tok} {j : Nat} (h : j ∈ b2j b x) :
    b[j]? = some x := by
  unfold b2j at h
  dsimp only at h
  split at h
  · exact absurd h (List.not_mem_nil j)
  · exact eq_of_beq (List.mem_filter.mp h).2

theorem flmInner_inv (a b : List Tok) (alo ahi blo bhi i : Nat) (oldf : Nat → Nat)
    (tok : Tok) (hai : a[i]? = some tok) (halo : alo ≤ i) (hia : i < ahi)
    (hold : RowInv a b alo blo bhi i oldf) :
    ∀ (js : List Nat) (newf : Nat → Nat) (best : MatchBlock),
      (∀ j ∈ js, b[j]? = some tok) →
      RowInv a b alo blo bhi (i + 1) newf →
      BestOK a b alo ahi blo bhi best →
      RowInv a b alo blo bhi (i + 1) (flmInner oldf blo bhi i js newf best).1 ∧
      BestOK a b alo ahi blo bhi (flmInner oldf blo bhi i js newf best).2 := by
  intro js
  induction js with
  | nil => intro newf best _ hnew hbest; exact ⟨hnew, hbest⟩
  | cons j js ih =>
    intro newf best hjs hnew hbest
    unfold flmInner
    by_cases hjlo : j < blo
    · rw [if_pos hjlo]
      exact ih newf best (fun q hq => hjs q (by simp [hq])) hnew hbest
    · rw [if_neg hjlo]
      by_cases hjhi : bhi ≤ j
      · rw [if_pos hjhi]
        exact ⟨hnew, hbest⟩
      · rw [if_neg hjhi]
        have hblo : blo ≤ j := by omega
        have hbj : b[j]? = some tok := hjs j (by simp)
        have hk_facts :
            ((if j = 0 then 0 else oldf (j - 1)) + 1) ≤ j + 1 - blo ∧
            ((if j = 0 then 0 else oldf (j - 1)) + 1) + alo ≤ i + 1 ∧
            (∀ t, t < (if j = 0 then 0 else oldf (j - 1)) + 1 →
              a[i - t]? = b[j - t]?) := by
          by_cases hj0 : j = 0
          · rw [if_pos hj0]
            subst hj0
            refine ⟨by omega, by omega, ?_⟩
            intro t ht
            have ht0 : t = 0 := by omega
            subst ht0
            rw [Nat.sub_zero, Nat.sub_zero, hai, hbj]
          · rw [if_neg hj0]
            by_cases hp0 : oldf (j - 1) = 0
            · rw [hp0]
              refine ⟨by omega, by omega, ?_⟩
              intro t ht
              have ht0 : t = 0 := by omega
              subst ht0
              rw [Nat.sub_zero, Nat.sub_zero, hai, hbj]
            · obtain ⟨hb1, hb2, hb3, hb4, hb5⟩ := hold (j - 1) hp0
              refine ⟨by omega, by omega, ?_⟩
              intro t ht
              match t with
              | 0 => rw [Nat.sub_zero, Nat.sub_zero, hai, hbj]
              | s + 1 =>
                have hs : s < oldf (j - 1) := by omega
                have hidx1 : i - (s + 1) = i - 1 - s := by omega
                have hidx2 : j - (s + 1) = j - 1 - s := by omega
                rw [hidx1, hidx2]
                exact hb5 s hs
        obtain ⟨hkbound1, hkbound2, hkmatch⟩ := hk_facts
        set k := (if j = 0 then 0 else oldf (j - 1)) + 1 with hkdef
        have hnew1 : RowInv a b alo blo bhi (i + 1)
            (fun x => if x = j then k else newf x) := by
          intro j' hj'
          by_cases hxj : j' = j
          · subst hxj
            simp only [if_pos rfl]
            refine ⟨hblo, by omega, hkbound1, hkbound2, ?_⟩
            intro t ht
            have : i + 1 - 1 - t = i - t := by omega
            rw [this]
            exact hkmatch t ht
          · simp only [if_neg hxj] at hj' ⊢
            exact hnew j' hj'
        have hbest1 : BestOK a b alo ahi blo bhi
            (if best.k < k then ⟨i + 1 - k, j + 1 - k, k⟩ else best) := by
          by_cases hlt : best.k < k
          · rw [if_pos hlt]
            refine ⟨?_, ?_, ?_, ?_, ?_⟩
            · show alo ≤ i + 1 - k
              omega
            · show i + 1 - k + k ≤ ahi
              omega
            · show blo ≤ j + 1 - k
              omega
            · show j + 1 - k + k ≤ bhi
              omega
            · intro t ht
              have ht' : t < k := ht
              show a[i + 1 - k + t]? = b[j + 1 - k + t]?
              have h1 : i + 1 - k + t = i - (k - 1 - t) := by omega
              have h2 : j + 1 - k + t = j - (k - 1 - t) := by omega
              rw [h1, h2]
              exact hkmatch (k - 1 - t) (by omega)
          · rw [if_neg hlt]
            exact hbest
        exact ih _ _ (fun q hq => hjs q (by simp [hq])) hnew1 hbest1

theorem flmRow_inv (a b : List Tok) (alo ahi blo bhi : Nat)
    (st : (Nat → Nat) × MatchBlock) (i : Nat)
    (halo : alo ≤ i) (hia : i < ahi)
    (hrow : RowInv a b alo blo bhi i st.1)
    (hbest : BestOK a b alo ahi blo bhi st.2) :
    RowInv a b alo blo bhi (i + 1) (flmRow a b blo bhi st i).1 ∧
    BestOK a b alo ahi blo bhi (flmRow a b blo bhi st i).2 := by
  unfold flmRow
  cases hai : a[i]? with
  | none =>
    refine ⟨?_, hbest⟩
    intro j hj
    exact absurd rfl hj
  | some tok =>
    exact flmInner_inv a b alo ahi blo bhi i st.1 tok hai halo hia hrow
      (b2j b tok) (fun _ => 0) st.2 (fun j hj => b2j_mem hj)
      (fun j hj => absurd rfl hj) hbest

theorem flmFold_inv (a b : List Tok) (alo ahi blo bhi : Nat) :
    ∀ (n r : Nat) (st : (Nat → Nat) × MatchBlock),
      alo ≤ r → r + n ≤ ahi →
      RowInv a b alo blo bhi r st.1 →
      BestOK a b alo ahi blo bhi st.2 →
      BestOK a b alo ahi blo bhi
        (((List.range' r n).foldl (flmRow a b blo bhi) st).2) := by
  intro n
  induction n with
  | zero => intro r st _ _ _ hbest; exact hbest
  | succ n ih =>
    intro r st hr hrn hrow hbest
    rw [List.range'_succ]
    rw [List.foldl_cons]
    have hstep := flmRow_inv a b alo ahi blo bhi st r hr (by omega) hrow hbest
    exact ih (r + 1) _ (by omega) (by omega) hstep.1 hstep.2

theorem matchAt_eq {a b : List Tok} {i j : Nat} (h : matchAt a b i j = true) :
    a[i]? = b[j]? := by
  unfold matchAt at h
  exact eq_of_beq (Bool.and_elim_left h)

theorem extendLeft_bestOK (a b : List Tok) (alo ahi blo bhi : Nat) :
    ∀ (fuel : Nat) (m : MatchBlock), BestOK a b alo ahi blo bhi m →
      BestOK a b alo ahi blo bhi (extendLeft a b alo blo fuel m) := by
  intro fuel
  induction fuel with
  | zero => intro m hm; exact hm
  | succ fuel ih =>
    intro m hm
    unfold extendLeft
    split
    · rename_i hcond
      simp only [Bool.and_eq_true, decide_eq_true_eq] at hcond
      obtain ⟨⟨hi, hj⟩, hmatch⟩ := hcond
      obtain ⟨hm1, hm2, hm3, hm4, hm5⟩ := hm
      refine ih _ ⟨?_, ?_, ?_, ?_, ?_⟩
      · show alo ≤ m.i - 1
        omega
      · show m.i - 1 + (m.k + 1) ≤ ahi
        omega
      · show blo ≤ m.j - 1
        omega
      · show m.j - 1 + (m.k + 1) ≤ bhi
        omega
      · intro t ht
        have ht' : t < m.k + 1 := ht
        match t, ht' with
        | 0, _ =>
          show a[m.i - 1 + 0]? = b[m.j - 1 + 0]?
          rw [Nat.add_zero, Nat.add_zero]
          exact matchAt_eq hmatch
        | s + 1, hs' =>
          show a[m.i - 1 + (s + 1)]? = b[m.j - 1 + (s + 1)]?
          have h1 : m.i - 1 + (s + 1) = m.i + s := by omega
          have h2 : m.j - 1 + (s + 1) = m.j + s := by omega
          rw [h1, h2]
          exact hm5 s (by omega)
    · exact hm

theorem extendRight_bestOK (a b : List Tok) (alo ahi blo bhi : Nat) :
    ∀ (fuel : Nat) (m : MatchBlock), BestOK a b alo ahi blo bhi m →
      BestOK a b alo ahi blo bhi (extendRight a b ahi bhi fuel m) := by
  intro fuel
  induction fuel with
  | zero => intro m hm; exact hm
  | succ fuel ih =>
    intro m hm
    unfold extendRight
    split
    · rename_i hcond
      simp only [Bool.and_eq_true, decide_eq_true_eq] at hcond
      obtain ⟨⟨hi, hj⟩, hmatch⟩ := hcond
      obtain ⟨hm1, hm2, hm3, hm4, hm5⟩ := hm
      refine ih _ ⟨hm1, ?_, hm3, ?_, ?_⟩
      · show m.i + (m.k + 1) ≤ ahi
        omega
      · show m.j + (m.k + 1) ≤ bhi
        omega
      · intro t ht
        have ht' : t < m.k + 1 := ht
        show a[m.i + t]? = b[m.j + t]?
        by_cases htk : t < m.k
        · exact hm5 t htk
        · have : t = m.k := by omega
          subst this
          exact matchAt_eq hmatch
    · exact hm

theorem findLongestMatch_spec (a b : List Tok) (alo ahi blo bhi : Nat)
    (h1 : alo ≤ ahi) (h2 : blo ≤ bhi) :
    BestOK a b alo ahi blo bhi (findLongestMatch a b alo ahi blo bhi) := by
  unfold findLongestMatch
  apply extendRight_bestOK
  apply extendLeft_bestOK
  apply flmFold_inv a b alo ahi blo bhi (ahi - alo) alo
  · exact Nat.le_refl alo
  · omega
  · intro j hj; exact absurd rfl hj
  · refine ⟨?_, ?_, ?_, ?_, ?_⟩
    · show alo ≤ alo
      omega
    · show alo + 0 ≤ ahi
      omega
    · show blo ≤ blo
      omega
    · show blo + 0 ≤ bhi
      omega
    · intro t ht
      have ht' : t < 0 := ht
      omega

/-! ## Chain structure of the matching blocks -/

theorem chain_mono_start {i j e f i' j' : Nat} {L : List MatchBlock}
    (h : Chain i j e f L) (hi : i' ≤ i) (hj : j' ≤ j) : Chain i' j' e f L := by
  cases L with
  | nil => trivial
  | cons m rest =>
    obtain ⟨h1, h2, h3, h4, h5⟩ := h
    exact ⟨by omega, by omega, h3, h4, h5⟩

theorem chain_mono_end {i j e f e' f' : Nat} {L : List MatchBlock}
    (h : Chain i j e f L) (he : e ≤ e') (hf : f ≤ f') : Chain i j e' f' L := by
  induction L generalizing i j with
  | nil => trivial
  | cons m rest ih =>
    obtain ⟨h1, h2, h3, h4, h5⟩ := h
    exact ⟨h1, h2, by omega, by omega, ih h5⟩

theorem chain_append {i j m n e f : Nat} {L1 L2 : List MatchBlock}
    (h1 : Chain i j m n L1) (h2 : Chain m n e f L2)
    (him : i ≤ m) (hjn : j ≤ n) (hme : m ≤ e) (hnf : n ≤ f) :
    Chain i j e f (L1 ++ L2) := by
  induction L1 generalizing i j with
  | nil =>
    exact chain_mono_start h2 him hjn
  | cons blk rest ih =>
    obtain ⟨hb1, hb2, hb3, hb4, hb5⟩ := h1
    exact ⟨hb1, hb2, by omega, by omega, ih hb5 (by omega) (by omega)⟩

theorem matchBlocksRec_spec (a b : List Tok) :
    ∀ (fuel alo ahi blo bhi : Nat), alo ≤ ahi → blo ≤ bhi →
      Chain alo blo ahi bhi (matchBlocksRec a b fuel alo ahi blo bhi) ∧
      AllMatch a b (matchBlocksRec a b fuel alo ahi blo bhi) := by
  intro fuel
  induction fuel with
  | zero =>
    intro alo ahi blo bhi _ _
    exact ⟨trivial, fun m hm => absurd hm (List.not_mem_nil m)⟩
  | succ fuel ih =>
    intro alo ahi blo bhi h1 h2
    unfold matchBlocksRec
    obtain ⟨hb1, hb2, hb3, hb4, hb5⟩ := findLongestMatch_spec a b alo ahi blo bhi h1 h2
    set m := findLongestMatch a b alo ahi blo bhi with hmdef
    by_cases hk : m.k = 0
    · rw [if_pos hk]
      exact ⟨trivial, fun q hq => absurd hq (List.not_mem_nil q)⟩
    · rw [if_neg hk]
      have hleft : Chain alo blo m.i m.j
            (if alo < m.i ∧ blo < m.j then matchBlocksRec a b fuel alo m.i blo m.j
             else []) ∧
          AllMatch a b
            (if alo < m.i ∧ blo < m.j then matchBlocksRec a b fuel alo m.i blo m.j
             else []) := by
        split
        · exact ih alo m.i blo m.j hb1 hb3
        · exact ⟨trivial, fun q hq => absurd hq (List.not_mem_nil q)⟩
      have hright : Chain (m.i + m.k) (m.j + m.k) ahi bhi
            (if m.i + m.k < ahi ∧ m.j + m.k < bhi then
              matchBlocksRec a b fuel (m.i + m.k) ahi (m.j + m.k) bhi else []) ∧
          AllMatch a b
            (if m.i + m.k < ahi ∧ m.j + m.k < bhi then
              matchBlocksRec a b fuel (m.i + m.k) ahi (m.j + m.k) bhi else []) := by
        split
        · exact ih (m.i + m.k) ahi (m.j + m.k) bhi hb2 hb4
        · exact ⟨trivial, fun q hq => absurd hq (List.not_mem_nil q)⟩
      constructor
      · refine chain_append (chain_mono_end hleft.1 (by omega) (by omega))
          ?_ hb1 hb3 (by omega) (by omega)
        exact ⟨Nat.le_refl m.i, Nat.le_refl m.j, by omega, by omega, hright.1⟩
      · intro q hq
        rcases List.mem_append.mp hq with hmem | hmem
        · exact hleft.2 q hmem
        · rcases List.mem_cons.mp hmem with hmem2 | hmem2
          · subst hmem2
            exact hb5
          · exact hright.2 q hmem2

theorem mergeAdjacent_spec (a b : List Tok) :
    ∀ (L : List MatchBlock) (i1 j1 k1 i j e f : Nat),
      i ≤ i1 → j ≤ j1 → i1 + k1 ≤ e → j1 + k1 ≤ f →
      (∀ t, t < k1 → a[i1 + t]? = b[j1 + t]?) →
      Chain (i1 + k1) (j1 + k1) e f L →
      AllMatch a b L →
      Chain i j e f (mergeAdjacent i1 j1 k1 L) ∧
      AllMatch a b (mergeAdjacent i1 j1 k1 L) := by
  intro L
  induction L with
  | nil =>
    intro i1 j1 k1 i j e f hi hj he hf hmatch _ _
    unfold mergeAdjacent
    split
    · constructor
      · exact ⟨hi, hj, he, hf, trivial⟩
      · intro q hq
        rw [List.mem_singleton] at hq
        subst hq
        exact hmatch
    · exact ⟨trivial, fun q hq => absurd hq (List.not_mem_nil q)⟩
  | cons blk rest ih =>
    intro i1 j1 k1 i j e f hi hj he hf hmatch hchain hall
    obtain ⟨hc1, hc2, hc3, hc4, hc5⟩ := hchain
    have hblkmatch : ∀ t, t < blk.k → a[blk.i + t]? = b[blk.j + t]? :=
      hall blk (by simp)
    have hall' : AllMatch a b rest := fun q hq => hall q (by simp [hq])
    unfold mergeAdjacent
    by_cases hadj : i1 + k1 = blk.i ∧ j1 + k1 = blk.j
    · rw [if_pos hadj]
      refine ih i1 j1 (k1 + blk.k) i j e f hi hj (by omega) (by omega) ?_ ?_ hall'
      · intro t ht
        by_cases htk : t < k1
        · exact hmatch t htk
        · have h1 : i1 + t = blk.i + (t - k1) := by omega
          have h2 : j1 + t = blk.j + (t - k1) := by omega
          rw [h1, h2]
          exact hblkmatch (t - k1) (by omega)
      · have e1 : i1 + (k1 + blk.k) = blk.i + blk.k := by omega
        have e2 : j1 + (k1 + blk.k) = blk.j + blk.k := by omega
        rw [e1, e2]
        exact hc5
    · rw [if_neg hadj]
      by_cases hk1 : k1 ≠ 0
      · rw [if_pos hk1]
        have htail := ih blk.i blk.j blk.k (i1 + k1) (j1 + k1) e f hc1 hc2 hc3 hc4
          hblkmatch hc5 hall'
        constructor
        · exact ⟨hi, hj, he, hf, htail.1⟩
        · intro q hq
          rcases List.mem_cons.mp hq with hmem | hmem
          · subst hmem
            exact hmatch
          · exact htail.2 q hmem
      · rw [if_neg hk1]
        push_neg at hk1
        refine ih blk.i blk.j blk.k i j e f ?_ ?_ hc3 hc4 hblkmatch hc5 hall'
        · omega
        · omega

theorem endA_append_sentinel (la lb : Nat) :
    ∀ (L : List MatchBlock) (d : Nat), endA d (L ++ [⟨la, lb, 0⟩]) = la := by
  intro L
  induction L with
  | nil => intro d; rfl
  | cons m rest ih => intro d; exact ih (m.i + m.k)

theorem endB_append_sentinel (la lb : Nat) :
    ∀ (L : List MatchBlock) (d : Nat), endB d (L ++ [⟨la, lb, 0⟩]) = lb := by
  intro L
  induction L with
  | nil => intro d; rfl
  | cons m rest ih => intro d; exact ih (m.j + m.k)

theorem getMatchingBlocks_spec (a b : List Tok) :
    Chain 0 0 a.length b.length (getMatchingBlocks a b) ∧
    AllMatch a b (getMatchingBlocks a b) ∧
    endA 0 (getMatchingBlocks a b) = a.length ∧
    endB 0 (getMatchingBlocks a b) = b.length := by
  unfold getMatchingBlocks
  obtain ⟨hchain, hall⟩ := matchBlocksRec_spec a b (a.length + b.length + 1)
    0 a.length 0 b.length (by omega) (by omega)
  have hmerged := mergeAdjacent_spec a b
    (matchBlocksRec a b (a.length + b.length + 1) 0 a.length 0 b.length)
    0 0 0 0 0 a.length b.length (by omega) (by omega) (by omega) (by omega)
    (by omega) hchain hall
  refine ⟨?_, ?_, endA_append_sentinel _ _ _ _, endB_append_sentinel _ _ _ _⟩
  · refine chain_append hmerged.1 ?_ (by omega) (by omega)
      (Nat.le_refl _) (Nat.le_refl _)
    refine ⟨Nat.le_refl _, Nat.le_refl _, ?_, ?_, trivial⟩
    · show a.length + 0 ≤ a.length
      omega
    · show b.length + 0 ≤ b.length
      omega
  · intro q hq
    rcases List.mem_append.mp hq with hmem | hmem
    · exact hmerged.2 q hmem
    · rw [List.mem_singleton] at hmem
      subst hmem
      intro t ht
      have ht' : t < 0 := ht
      omega

/-! ## The opcode walk: well-formedness and coverage -/

theorem endA_ge {e f : Nat} : ∀ (L : List MatchBlock) (i j : Nat),
    Chain i j e f L → i ≤ endA i L := by
  intro L
  induction L with
  | nil => intro i j _; exact Nat.le_refl i
  | cons m rest ih =>
    intro i j h
    obtain ⟨h1, h2, h3, h4, h5⟩ := h
    show i ≤ endA (m.i + m.k) rest
    have := ih (m.i + m.k) (m.j + m.k) h5
    omega

theorem endB_ge {e f : Nat} : ∀ (L : List MatchBlock) (i j : Nat),
    Chain i j e f L → j ≤ endB j L := by
  intro L
  induction L with
  | nil => intro i j _; exact Nat.le_refl j
  | cons m rest ih =>
    intro i j h
    obtain ⟨h1, h2, h3, h4, h5⟩ := h
    show j ≤ endB (m.j + m.k) rest
    have := ih (m.i + m.k) (m.j + m.k) h5
    omega

theorem opcodeWF_mk {la lb : Nat} {tg : OpTag} {i1 i2 j1 j2 : Nat}
    (h1 : i1 ≤ i2) (h2 : i2 ≤ la) (h3 : j1 ≤ j2) (h4 : j2 ≤ lb)
    (h5 : tg = OpTag.equal → i1 < i2 ∧ j1 < j2)
    (h6 : tg = OpTag.delete → i1 < i2)
    (h7 : tg = OpTag.insert → j1 < j2)
    (h8 : tg = OpTag.replace → i1 < i2 ∧ j1 < j2) :
    OpcodeWF la lb ⟨tg, i1, i2, j1, j2⟩ :=
  ⟨h1, h2, h3, h4, h5, h6, h7, h8⟩

theorem opWalk_wf {e f : Nat} : ∀ (L : List MatchBlock) (i j : Nat),
    Chain i j e f L →
    ∀ oc ∈ opWalk i j L, OpcodeWF e f oc := by
  intro L
  induction L with
  | nil => intro i j _ oc hoc; exact absurd hoc (List.not_mem_nil oc)
  | cons m rest ih =>
    intro i j hchain oc hoc
    obtain ⟨h1, h2, h3, h4, h5⟩ := hchain
    unfold opWalk at hoc
    rcases List.mem_append.mp hoc with hmem | hmem
    · rcases List.mem_append.mp hmem with hgap | heq
      · split at hgap
        · rename_i hcond
          rw [List.mem_singleton] at hgap
          subst hgap
          exact opcodeWF_mk (by omega) (by omega) (by omega) (by omega)
            (fun hcontra => absurd hcontra (by decide))
            (fun hcontra => absurd hcontra (by decide))
            (fun hcontra => absurd hcontra (by decide))
            (fun _ => ⟨by omega, by omega⟩)
        · split at hgap
          · rename_i hcond1 hcond2
            rw [List.mem_singleton] at hgap
            subst hgap
            exact opcodeWF_mk (by omega) (by omega) (by omega) (by omega)
              (fun hcontra => absurd hcontra (by decide))
              (fun _ => by omega)
              (fun hcontra => absurd hcontra (by decide))
              (fun hcontra => absurd hcontra (by decide))
          · split at hgap
            · rename_i hcond1 hcond2 hcond3
              rw [List.mem_singleton] at hgap
              subst hgap
              exact opcodeWF_mk (by omega) (by omega) (by omega) (by omega)
                (fun hcontra => absurd hcontra (by decide))
                (fun hcontra => absurd hcontra (by decide))
                (fun _ => by omega)
                (fun hcontra => absurd hcontra (by decide))
            · exact absurd hgap (List.not_mem_nil oc)
      · split at heq
        · rename_i hk
          rw [List.mem_singleton] at heq
          subst heq
          exact opcodeWF_mk (by omega) (by omega) (by omega) (by omega)
            (fun _ => ⟨by omega, by omega⟩)
            (fun hcontra => absurd hcontra (by decide))
            (fun hcontra => absurd hcontra (by decide))
            (fun hcontra => absurd hcontra (by decide))
        · exact absurd heq (List.not_mem_nil oc)
    · exact ih (m.i + m.k) (m.j + m.k) h5 oc hmem

theorem opWalk_a (a : List Tok) {e f : Nat} : ∀ (L : List MatchBlock) (i j : Nat),
    Chain i j e f L →
    ((opWalk i j L).map (opASlice a)).flatten = slice a i (endA i L) := by
  intro L
  induction L with
  | nil =>
    intro i j _
    show ([] : List Tok) = slice a i i
    rw [slice_same]
  | cons m rest ih =>
    intro i j hchain
    obtain ⟨h1, h2, h3, h4, h5⟩ := hchain
    unfold opWalk
    rw [List.map_append, List.map_append, List.flatten_append, List.flatten_append]
    have hgap : (((if i < m.i ∧ j < m.j then [⟨OpTag.replace, i, m.i, j, m.j⟩]
        else if i < m.i then [⟨OpTag.delete, i, m.i, j, m.j⟩]
        else if j < m.j then [⟨OpTag.insert, i, m.i, j, m.j⟩]
        else []) : List Opcode).map (opASlice a)).flatten = slice a i m.i := by
      split
      · show opASlice a ⟨OpTag.replace, i, m.i, j, m.j⟩ ++ [] = _
        rw [List.append_nil]
        rfl
      · split
        · show opASlice a ⟨OpTag.delete, i, m.i, j, m.j⟩ ++ [] = _
          rw [List.append_nil]
          rfl
        · split
          · show opASlice a ⟨OpTag.insert, i, m.i, j, m.j⟩ ++ [] = _
            rw [List.append_nil]
            show ([] : List Tok) = slice a i m.i
            rename_i hc1 hc2 hc3
            have : i = m.i := by omega
            rw [← this, slice_same]
          · show ([] : List Tok) = slice a i m.i
            rename_i hc1 hc2 hc3
            have : i = m.i := by omega
            rw [← this, slice_same]
    have heq : (((if m.k ≠ 0 then [⟨OpTag.equal, m.i, m.i + m.k, m.j, m.j + m.k⟩]
        else []) : List Opcode).map (opASlice a)).flatten =
        slice a m.i (m.i + m.k) := by
      split
      · show opASlice a ⟨OpTag.equal, m.i, m.i + m.k, m.j, m.j + m.k⟩ ++ [] = _
        rw [List.append_nil]
        rfl
      · rename_i hk
        push_neg at hk
        show ([] : List Tok) = slice a m.i (m.i + m.k)
        rw [hk, Nat.add_zero, slice_same]
    rw [hgap, heq, ih (m.i + m.k) (m.j + m.k) h5]
    show _ = slice a i (endA (m.i + m.k) rest)
    have hend : m.i + m.k ≤ endA (m.i + m.k) rest := endA_ge rest _ (m.j + m.k) h5
    rw [List.append_assoc]
    rw [slice_append a m.i (m.i + m.k) _ (by omega) hend]
    rw [slice_append a i m.i _ h1 (by omega)]

theorem opWalk_b (a b : List Tok) {e f : Nat} : ∀ (L : List MatchBlock) (i j : Nat),
    Chain i j e f L → AllMatch a b L →
    ((opWalk i j L).map (opBSlice a b)).flatten = slice b j (endB j L) := by
  intro L
  induction L with
  | nil =>
    intro i j _ _
    show ([] : List Tok) = slice b j j
    rw [slice_same]
  | cons m rest ih =>
    intro i j hchain hall
    obtain ⟨h1, h2, h3, h4, h5⟩ := hchain
    have hmmatch : ∀ t, t < m.k → a[m.i + t]? = b[m.j + t]? := hall m (by simp)
    have hall' : AllMatch a b rest := fun q hq => hall q (by simp [hq])
    unfold opWalk
    rw [List.map_append, List.map_append, List.flatten_append, List.flatten_append]
    have hgap : (((if i < m.i ∧ j < m.j then [⟨OpTag.replace, i, m.i, j, m.j⟩]
        else if i < m.i then [⟨OpTag.delete, i, m.i, j, m.j⟩]
        else if j < m.j then [⟨OpTag.insert, i, m.i, j, m.j⟩]
        else []) : List Opcode).map (opBSlice a b)).flatten = slice b j m.j := by
      split
      · show opBSlice a b ⟨OpTag.replace, i, m.i, j, m.j⟩ ++ [] = _
        rw [List.append_nil]
        rfl
      · split
        · show opBSlice a b ⟨OpTag.delete, i, m.i, j, m.j⟩ ++ [] = _
          rw [List.append_nil]
          show ([] : List Tok) = slice b j m.j
          rename_i hc1 hc2
          have : j = m.j := by omega
          rw [← this, slice_same]
        · split
          · show opBSlice a b ⟨OpTag.insert, i, m.i, j, m.j⟩ ++ [] = _
            rw [List.append_nil]
            rfl
          · show ([] : List Tok) = slice b j m.j
            rename_i hc1 hc2 hc3
            have : j = m.j := by omega
            rw [← this, slice_same]
    have heq : (((if m.k ≠ 0 then [⟨OpTag.equal, m.i, m.i + m.k, m.j, m.j + m.k⟩]
        else []) : List Opcode).map (opBSlice a b)).flatten =
        slice b m.j (m.j + m.k) := by
      split
      · show opBSlice a b ⟨OpTag.equal, m.i, m.i + m.k, m.j, m.j + m.k⟩ ++ [] = _
        rw [List.append_nil]
        show slice a m.i (m.i + m.k) = _
        exact slice_eq_of_match a b m.i m.j m.k hmmatch
      · rename_i hk
        push_neg at hk
        show ([] : List Tok) = slice b m.j (m.j + m.k)
        rw [hk, Nat.add_zero, slice_same]
    rw [hgap, heq, ih (m.i + m.k) (m.j + m.k) h5 hall']
    show _ = slice b j (endB (m.j + m.k) rest)
    have hend : m.j + m.k ≤ endB (m.j + m.k) rest := endB_ge rest _ (m.j + m.k) h5
    rw [List.append_assoc]
    rw [slice_append b m.j (m.j + m.k) _ (by omega) hend]
    rw [slice_append b j m.j _ h2 (by omega)]

/-! ## Claim C2: the word-diff round trip -/

theorem spanTokens_join (words : List Tok) (i1 i2 : Nat)
    (htok : ∀ w ∈ words, w ≠ [] ∧ ∀ c ∈ w, pyIsSpace c = false)
    {tg : DiffTag} :
    spanTokens ⟨tg, joinSpace (slice words i1 i2)⟩ = slice words i1 i2 := by
  unfold spanTokens
  exact pySplit_joinSpace _ (fun w hw => htok w (mem_slice hw))

theorem opcodeToDiffOps_a (oldWords newWords : List Tok) (la lb : Nat)
    (oc : Opcode) (hwf : OpcodeWF la lb oc)
    (htok : ∀ w ∈ oldWords, w ≠ [] ∧ ∀ c ∈ w, pyIsSpace c = false) :
    (((opcodeToDiffOps oldWords newWords oc).filter
        (fun op => op.operation != DiffTag.insert)).map spanTokens).flatten =
      opASlice oldWords oc := by
  obtain ⟨_, _, _, _, _, _, _, hrep⟩ := hwf
  unfold opcodeToDiffOps opASlice
  cases htag : oc.tag with
  | equal =>
    show spanTokens ⟨DiffTag.equal, joinSpace (slice oldWords oc.i1 oc.i2)⟩ ++ [] = _
    rw [List.append_nil, spanTokens_join oldWords _ _ htok]
  | delete =>
    show spanTokens ⟨DiffTag.delete, joinSpace (slice oldWords oc.i1 oc.i2)⟩ ++ [] = _
    rw [List.append_nil, spanTokens_join oldWords _ _ htok]
  | insert => rfl
  | replace =>
    obtain ⟨hii, hjj⟩ := hrep htag
    rw [if_pos hii, if_pos hjj]
    show spanTokens ⟨DiffTag.delete, joinSpace (slice oldWords oc.i1 oc.i2)⟩ ++ [] = _
    rw [List.append_nil, spanTokens_join oldWords _ _ htok]

theorem opcodeToDiffOps_b (oldWords newWords : List Tok) (la lb : Nat)
    (oc : Opcode) (hwf : OpcodeWF la lb oc)
    (htokOld : ∀ w ∈ oldWords, w ≠ [] ∧ ∀ c ∈ w, pyIsSpace c = false)
    (htokNew : ∀ w ∈ newWords, w ≠ [] ∧ ∀ c ∈ w, pyIsSpace c = false) :
    (((opcodeToDiffOps oldWords newWords oc).filter
        (fun op => op.operation != DiffTag.delete)).map spanTokens).flatten =
      opBSlice oldWords newWords oc := by
  obtain ⟨_, _, _, _, _, _, _, hrep⟩ := hwf
  unfold opcodeToDiffOps opBSlice
  cases htag : oc.tag with
  | equal =>
    show spanTokens ⟨DiffTag.equal, joinSpace (slice oldWords oc.i1 oc.i2)⟩ ++ [] = _
    rw [List.append_nil, spanTokens_join oldWords _ _ htokOld]
  | delete => rfl
  | insert =>
    show spanTokens ⟨DiffTag.insert, joinSpace (slice newWords oc.j1 oc.j2)⟩ ++ [] = _
    rw [List.append_nil, spanTokens_join newWords _ _ htokNew]
  | replace =>
    obtain ⟨hii, hjj⟩ := hrep htag
    rw [if_pos hii, if_pos hjj]
    show spanTokens ⟨DiffTag.insert, joinSpace (slice newWords oc.j1 oc.j2)⟩ ++ [] = _
    rw [List.append_nil, spanTokens_join newWords _ _ htokNew]

theorem flatMap_filter_spans (oldWords newWords : List Tok) (la lb : Nat)
    (p : DiffOperation → Bool) (g : Opcode → List Tok)
    (hper : ∀ oc, OpcodeWF la lb oc →
      (((opcodeToDiffOps oldWords newWords oc).filter p).map spanTokens).flatten =
        g oc) :
    ∀ ocs : List Opcode, (∀ oc ∈ ocs, OpcodeWF la lb oc) →
      (((ocs.flatMap (opcodeToDiffOps oldWords newWords)).filter p).map
          spanTokens).flatten =
        (ocs.map g).flatten := by
  intro ocs
  induction ocs with
  | nil => intro _; rfl
  | cons oc rest ih =>
    intro hwf
    rw [List.flatMap_cons, List.filter_append, List.map_append,
      List.flatten_append, List.map_cons, List.flatten_cons]
    rw [hper oc (hwf oc (by simp)), ih (fun q hq => hwf q (by simp [hq]))]

/-- C2 (confirmed): for every pair of texts, the word-level diff partitions
both token sequences — concatenating the tokens of the DELETE and EQUAL
spans, in order, yields exactly the whitespace tokenization of the original
text, and concatenating the tokens of the INSERT and EQUAL spans yields
exactly the whitespace tokenization of the corrected text. -/
theorem C2_diff_partitions (oldText newText : Str) :
    (((computeWordDiff oldText newText).filter
        (fun op => op.operation != DiffTag.insert)).map spanTokens).flatten =
      pySplit oldText ∧
    (((computeWordDiff oldText newText).filter
        (fun op => op.operation != DiffTag.delete)).map spanTokens).flatten =
      pySplit newText := by
  have htokOld := pySplit_tokens oldText
  have htokNew := pySplit_tokens newText
  set ow := pySplit oldText with howdef
  set nw := pySplit newText with hnwdef
  obtain ⟨hchain, hall, hendA, hendB⟩ := getMatchingBlocks_spec ow nw
  have hwf := opWalk_wf (e := ow.length) (f := nw.length)
    (getMatchingBlocks ow nw) 0 0 hchain
  constructor
  · show (((getOpcodes ow nw).flatMap (opcodeToDiffOps ow nw)).filter _ |>.map
      spanTokens).flatten = ow
    rw [flatMap_filter_spans ow nw ow.length nw.length _ (opASlice ow)
      (fun oc hoc => opcodeToDiffOps_a ow nw ow.length nw.length oc hoc htokOld)
      (getOpcodes ow nw) (fun oc hoc => hwf oc hoc)]
    show ((opWalk 0 0 (getMatchingBlocks ow nw)).map (opASlice ow)).flatten = ow
    rw [opWalk_a ow (getMatchingBlocks ow nw) 0 0 hchain, hendA, slice_full]
  · show (((getOpcodes ow nw).flatMap (opcodeToDiffOps ow nw)).filter _ |>.map
      spanTokens).flatten = nw
    rw [flatMap_filter_spans ow nw ow.length nw.length _ (opBSlice ow nw)
      (fun oc hoc => opcodeToDiffOps_b ow nw ow.length nw.length oc hoc htokOld htokNew)
      (getOpcodes ow nw) (fun oc hoc => hwf oc hoc)]
    show ((opWalk 0 0 (getMatchingBlocks ow nw)).map (opBSlice ow nw)).flatten = nw
    rw [opWalk_b ow nw (getMatchingBlocks ow nw) 0 0 hchain hall, hendB, slice_full]

/-! ## Claim C6: separator spaces in the rendered diff -/

theorem diffOps_text_ne_nil (oldText newText : Str) :
    ∀ op ∈ computeWordDiff oldText newText, op.text ≠ [] := by
  intro op hop
  have htokOld := pySplit_tokens oldText
  have htokNew := pySplit_tokens newText
  set ow := pySplit oldText with howdef
  set nw := pySplit newText with hnwdef
  obtain ⟨hchain, _, _, _⟩ := getMatchingBlocks_spec ow nw
  obtain ⟨oc, hoc, hopin⟩ := List.mem_flatMap.mp hop
  have hwf := opWalk_wf (e := ow.length) (f := nw.length)
    (getMatchingBlocks ow nw) 0 0 hchain oc hoc
  obtain ⟨hw1, hw2, hw3, hw4, hweq, hwdel, hwins, hwrep⟩ := hwf
  have hslicesOld : ∀ i1 i2 : Nat, i1 < i2 → i2 ≤ ow.length →
      joinSpace (slice ow i1 i2) ≠ [] := by
    intro i1 i2 hlt hle
    refine joinSpace_ne_nil _ (slice_ne_nil ow i1 i2 hlt hle) ?_
    intro w hw
    exact (htokOld w (mem_slice hw)).1
  have hslicesNew : ∀ j1 j2 : Nat, j1 < j2 → j2 ≤ nw.length →
      joinSpace (slice nw j1 j2) ≠ [] := by
    intro j1 j2 hlt hle
    refine joinSpace_ne_nil _ (slice_ne_nil nw j1 j2 hlt hle) ?_
    intro w hw
    exact (htokNew w (mem_slice hw)).1
  unfold opcodeToDiffOps at hopin
  cases htag : oc.tag with
  | equal =>
    rw [htag] at hopin
    rw [List.mem_singleton] at hopin
    subst hopin
    exact hslicesOld oc.i1 oc.i2 (hweq htag).1 hw2
  | delete =>
    rw [htag] at hopin
    rw [List.mem_singleton] at hopin
    subst hopin
    exact hslicesOld oc.i1 oc.i2 (hwdel htag) hw2
  | insert =>
    rw [htag] at hopin
    rw [List.mem_singleton] at hopin
    subst hopin
    exact hslicesNew oc.j1 oc.j2 (hwins htag) hw4
  | replace =>
    rw [htag] at hopin
    obtain ⟨hii, hjj⟩ := hwrep htag
    rw [if_pos hii, if_pos hjj] at hopin
    rcases List.mem_cons.mp hopin with hmem | hmem
    · subst hmem
      exact hslicesOld oc.i1 oc.i2 hii hw2
    · have hmem2 : op =
          (⟨DiffTag.insert, joinSpace (slice nw oc.j1 oc.j2)⟩ : DiffOperation) :=
        List.mem_singleton.mp hmem
      rw [hmem2]
      exact hslicesNew oc.j1 oc.j2 hjj hw4

theorem renderLoop_alt (ops : List DiffOperation)
    (hne : ∀ op ∈ ops, op.text ≠ []) :
    ∀ p : DiffOperation, sepHead ops ++ renderLoop (some p) ops = altGo p ops := by
  induction ops with
  | nil => intro p; rfl
  | cons op rest ih =>
    intro p
    have hop : op.text ≠ [] := hne op (by simp)
    have hopE : op.text.isEmpty = false := isEmpty_false_of_ne_nil hop
    have hsep : ((if op.operation = DiffTag.equal then [spaceRun] else []) ++
        (if op.operation ≠ DiffTag.equal ∧ p.operation ≠ DiffTag.equal then
          [spaceRun] else [])) =
        (if sepBeforeAmended p.operation op.operation then [spaceRun] else []) := by
      cases hopo : op.operation <;> cases hpo : p.operation <;> decide
    unfold renderLoop
    rw [if_neg (by rw [hopE]; decide)]
    cases rest with
    | nil =>
      show (if op.operation = DiffTag.equal then [spaceRun] else []) ++
          (((if op.operation ≠ DiffTag.equal ∧ p.operation ≠ DiffTag.equal then
            [spaceRun] else []) ++ styleRun op :: ([] : List DocRun)) ++ []) =
          altGo p [op]
      show _ = (if sepBeforeAmended p.operation op.operation then [spaceRun] else []) ++
        styleRun op :: ([] : List DocRun)
      rw [List.append_nil, ← List.append_assoc, hsep]
    | cons next tail =>
      have htail := ih (fun q hq => hne q (by simp [hq])) op
      show (if op.operation = DiffTag.equal then [spaceRun] else []) ++
          (((if op.operation ≠ DiffTag.equal ∧ p.operation ≠ DiffTag.equal then
            [spaceRun] else []) ++ styleRun op ::
             (if next.operation = DiffTag.equal then [spaceRun] else [])) ++
           renderLoop (some op) (next :: tail)) =
          altGo p (op :: next :: tail)
      show _ = (if sepBeforeAmended p.operation op.operation then [spaceRun] else []) ++
        styleRun op :: altGo op (next :: tail)
      rw [show (if next.operation = DiffTag.equal then [spaceRun] else []) =
        sepHead (next :: tail) from rfl]
      simp only [List.cons_append, List.append_assoc]
      rw [htail, ← List.append_assoc, hsep]

theorem renderOps_alt (ops : List DiffOperation)
    (hne : ∀ op ∈ ops, op.text ≠ []) :
    renderOps ops = altRender ops := by
  cases ops with
  | nil => rfl
  | cons op rest =>
    have hop : op.text ≠ [] := hne op (by simp)
    have hopE : op.text.isEmpty = false := isEmpty_false_of_ne_nil hop
    unfold renderOps renderLoop altRender
    rw [if_neg (by rw [hopE]; decide)]
    cases rest with
    | nil => rfl
    | cons next tail =>
      show ([] : List DocRun) ++ styleRun op ::
          ((if next.operation = DiffTag.equal then [spaceRun] else []) ++
            renderLoop (some op) (next :: tail)) =
          styleRun op :: altGo op (next :: tail)
      rw [List.nil_append]
      rw [show (if next.operation = DiffTag.equal then [spaceRun] else []) =
        sepHead (next :: tail) from rfl]
      rw [renderLoop_alt (next :: tail) (fun q hq => hne q (by simp [hq])) op]

/-- C6 (corrected): the rendering loop of `apply_visual_diff` separates
consecutive spans by exactly one space in these cases only — always before
an EQUAL span, and before a non-EQUAL span exactly when the span before it
is also non-EQUAL. In particular no separator is written between an EQUAL
span and a following deletion or insertion, while the DELETE and INSERT
spans of a replace expansion are separated by one space — both contrary to
the claim. Empty spans are dropped (the diff never produces one). -/
theorem C6_render_amended (oldText newText : Str) :
    renderOps (computeWordDiff oldText newText) =
      altRender (computeWordDiff oldText newText) :=
  renderOps_alt _ (diffOps_text_ne_nil oldText newText)

/-- C6 counterexample: diffing `"a b x"` against `"a b"` yields the spans
EQUAL "a b", DELETE "x" — consecutive spans, not a replace-expansion pair,
so the claim demands one separator space — but the rendered run list is
exactly the two text runs with no space run between them; and for the
replace expansion in the spec's own scenario B the DELETE and INSERT spans
are rendered with a separator space, which the claim's exception forbids. -/
theorem C6_render_counterexample :
    computeWordDiff ("a b x".toList) ("a b".toList) =
      [⟨DiffTag.equal, "a b".toList⟩, ⟨DiffTag.delete, "x".toList⟩] ∧
    renderOps (computeWordDiff ("a b x".toList) ("a b".toList)) =
      [{ text := "a b".toList },
       { text := "x".toList, strike := true, colorRGB := some (180, 0, 0) }] ∧
    (renderOps (computeWordDiff
        ("Во истину Аллаh велик.".toList) ("Воистину Аллаh велик.".toList))).map
      (fun r => r.text) =
      ["Во истину".toList, [' '], "Воистину".toList, [' '],
       "Аллаh велик.".toList] := by
  refine ⟨by decide, by decide, by decide⟩

end Tafsir
